import Mathlib

/-!
# generate_model: relationship classifier and field/association merger

A shallow embedding of `cmd/schema2config.go` (the column type mapping, the
belongs-to pass, the has-relation pass and the model assembly of
`runSchema2Config`) and of `cmd/config2model.go` (the import list and the field
list built by `runConfig2Model`).

Go maps are association lists with unique keys (`mapGet`, `mapSet`), database
result sets are lists of rows, and the two third-party naming libraries
(`go-pluralize`, `strcase`) are a record of three string functions.
-/

namespace GenerateModel

/-! ## Data model (`schema2config.go`, lines 26-58) -/

/-- The `Column` struct; `Typ` is its field `Type`. -/
structure Column where
  Name : String
  Typ : String
deriving DecidableEq, Repr

/-- The `Association` struct; `Typ` is its field `Type`. -/
structure Association where
  Name : String
  Typ : String
  ConstraintType : String
deriving DecidableEq, Repr

/-- The `Model` struct. -/
structure Model where
  Name : String
  Fields : List Column
  Associations : List Association
deriving DecidableEq, Repr

def associateHasOne : String := "hasOne"
def associateHasMany : String := "hasMany"
def associateBelongsTo : String := "belongsTo"

/-! ## Go maps with string keys -/

/-- The lookup `v, ok := m[k]`. -/
def mapGet {β : Type} : List (String × β) → String → Option β
  | [], _ => none
  | (k', v) :: rest, k => if k' = k then some v else mapGet rest k

/-- The assignment `m[k] = v`. -/
def mapSet {β : Type} : List (String × β) → String → β → List (String × β)
  | [], k, v => [(k, v)]
  | (k', v') :: rest, k, v =>
    if k' = k then (k', v) :: rest else (k', v') :: mapSet rest k v

/-- The keys of a map. -/
def mapKeys {β : Type} (m : List (String × β)) : List String := m.map Prod.fst

/-! ## Belongs-to pass (`schema2config.go`, lines 165-235) -/

/-- One row of `belongsAssociationRows`: constraint name and referenced table. -/
structure BelongsAssociationRow where
  constraintName : String
  belongsTable : String
deriving DecidableEq, Repr

/-- Lines 166-175: the first row seen for a constraint name wins. -/
def buildBelongsTables (rows : List BelongsAssociationRow) : List (String × String) :=
  rows.foldl
    (fun belongsTables r =>
      match mapGet belongsTables r.constraintName with
      | some _ => belongsTables
      | none => mapSet belongsTables r.constraintName r.belongsTable)
    []

/-- One row of `belongsToRows`. -/
structure BelongsToRow where
  tableName : String
  columnName : String
  constraintName : String
  constraintType : String
deriving DecidableEq, Repr

/-- Lines 200-234: the body of the loop over `belongsToRows`. -/
def belongsToStep (belongsTables : List (String × String))
    (associations : List (String × List Association)) (r : BelongsToRow) :
    List (String × List Association) :=
  match mapGet belongsTables r.constraintName with
  | none => associations
  | some bv =>
    let newAssociation : Association :=
      { Name := bv, Typ := associateBelongsTo, ConstraintType := r.constraintType }
    match mapGet associations r.tableName with
    | some v =>
      let isExist := v.any (fun a => a.Name == newAssociation.Name)
      mapSet associations r.tableName (if !isExist then v ++ [newAssociation] else v)
    | none =>
      match mapGet belongsTables r.constraintName with
      | some name =>
        mapSet associations r.tableName
          [{ Name := name, Typ := associateBelongsTo, ConstraintType := r.constraintType }]
      | none => associations

/-- Lines 193-235: the loop over `belongsToRows`. -/
def belongsToPass (belongsTables : List (String × String)) (rows : List BelongsToRow)
    (associations : List (String × List Association)) : List (String × List Association) :=
  rows.foldl (belongsToStep belongsTables) associations

/-! ## Has-relation pass (`schema2config.go`, lines 237-298) -/

/-- The three naming functions the program calls: `pluralize.Client.Singular`,
`pluralize.Client.Plural` and `strcase.ToCamel`. -/
structure Namer where
  singular : String → String
  plural : String → String
  toCamel : String → String

/-- One row of `hasOneOrHasManyRows`. -/
structure HasRelationRow where
  parent : String
  children : String
  childrenForeignKey : String
  constraintType : String
deriving DecidableEq, Repr

/-- Lines 266-273: the scan of the parent's columns. It returns the lines it
prints. The `continue` of line 270 stands inside `for _, c := range columns`, so
it resumes that loop, and control reaches line 275 for every row. -/
def skipCheck (nm : Namer) (tables : List (String × List Column)) (r : HasRelationRow) :
    List String :=
  match mapGet tables r.parent with
  | some columns =>
    (columns.filter (fun c => nm.singular c.Name == nm.singular r.children)).map
      (fun _ => r.children)
  | none => []

/-- The assignment `v[k].Type = associateHasOne`. -/
def setHasOne : List Association → Nat → List Association
  | [], _ => []
  | a :: rest, 0 => { a with Typ := associateHasOne } :: rest
  | a :: rest, k + 1 => a :: setHasOne rest k

/-- Lines 282-291: `for k, a := range v`, at index `k` with the entries still to
visit; `v` is the whole slice. -/
def hasRelationScan (newAssociation : Association) (v : List Association) :
    Nat → List Association → List Association
  | _, [] => v
  | k, a :: rest =>
    if a.Name != newAssociation.Name then
      v ++ [newAssociation]
    else if a.Name == newAssociation.Name
        && a.ConstraintType != newAssociation.ConstraintType then
      setHasOne v k
    else
      hasRelationScan newAssociation v (k + 1) rest

/-- Lines 264-297: the body of the loop over `hasOneOrHasManyRows`. The column
scan of lines 266-273 (`skipCheck`) only prints, so the result does not depend
on `nm` and `tables`. -/
def hasRelationStep (_nm : Namer) (_tables : List (String × List Column))
    (associations : List (String × List Association)) (r : HasRelationRow) :
    List (String × List Association) :=
  let newAssociation : Association :=
    { Name := r.children, Typ := associateHasMany, ConstraintType := r.constraintType }
  match mapGet associations r.parent with
  | some v => mapSet associations r.parent (hasRelationScan newAssociation v 0 v)
  | none => mapSet associations r.parent [newAssociation]

/-- Lines 257-298: the loop over `hasOneOrHasManyRows`. -/
def hasRelationPass (nm : Namer) (tables : List (String × List Column))
    (rows : List HasRelationRow) (associations : List (String × List Association)) :
    List (String × List Association) :=
  rows.foldl (hasRelationStep nm tables) associations

/-- Lines 151-298: the association map of `runSchema2Config`, from the empty map
through the belongs-to pass and then the has-relation pass. -/
def classify (nm : Namer) (tables : List (String × List Column))
    (belongsTables : List (String × String)) (belongsToRows : List BelongsToRow)
    (hasRows : List HasRelationRow) : List (String × List Association) :=
  hasRelationPass nm tables hasRows (belongsToPass belongsTables belongsToRows [])

/-! ## Model assembly (`schema2config.go`, lines 300-312) -/

/-- Lines 302-311: the inner loop over `associations` for one table. -/
def assembleTable (tk : String) (tv : List Column) :
    List (String × List Association) → List Model
  | [] => []
  | (ak, av) :: rest =>
    if tk != ak then assembleTable tk tv rest
    else { Name := tk, Fields := tv, Associations := av } :: assembleTable tk tv rest

/-- Lines 300-312: the loop over `tables`. -/
def assemble (tables : List (String × List Column))
    (associations : List (String × List Association)) : List Model :=
  match tables with
  | [] => []
  | (tk, tv) :: rest => assembleTable tk tv associations ++ assemble rest associations

/-! ## Field/association merger (`config2model.go`, lines 73-160) -/

/-- The part of an `ast.Field` the program fills in: `Names[0].Name` and the
name of the `Type` identifier. -/
structure Field where
  name : String
  typeExpr : String
deriving DecidableEq, Repr

/-- The characters of `strings.Replace(s, "Id", "ID", 1)`. -/
def replaceIdChars : List Char → List Char
  | [] => []
  | [c] => [c]
  | c :: d :: rest =>
    if c = 'I' ∧ d = 'd' then 'I' :: 'D' :: rest else c :: replaceIdChars (d :: rest)

/-- The call `strings.Replace(s, "Id", "ID", 1)`. -/
def replaceId (s : String) : String := String.mk (replaceIdChars s.data)

/-- Lines 74-88: the field of one column. -/
def columnField (nm : Namer) (f : Column) : Field :=
  { name := replaceId (nm.toCamel f.Name), typeExpr := f.Typ }

/-- Lines 101-112: the flag `isExist` after the scan of `fields`. -/
def isExist (nm : Namer) (fields : List Field) (a : Association) : Bool :=
  fields.any (fun f =>
    let name := nm.toCamel (nm.singular a.Name)
    let pluName := nm.plural name
    name == f.name || pluName == f.name)

/-- Lines 100-160: the body of the loop over `model.Associations`. -/
def associationStep (nm : Namer) (fields : List Field) (a : Association) : List Field :=
  if isExist nm fields a then fields
  else if a.Typ == associateHasOne || a.Typ == associateBelongsTo then
    let name := nm.toCamel (nm.singular a.Name)
    fields ++ [{ name := name, typeExpr := "*" ++ name }]
  else if a.Typ == associateHasMany then
    let name := nm.toCamel a.Name
    let siName := nm.singular name
    let pluName := nm.plural name
    fields ++ [{ name := pluName, typeExpr := "[]*" ++ siName }]
  else fields

/-- Lines 73-89: the fields of the columns. -/
def columnFields (nm : Namer) (m : Model) : List Field := m.Fields.map (columnField nm)

/-- Lines 73-160: the slice `fields` of one model at line 161. -/
def mergeFields (nm : Namer) (m : Model) : List Field :=
  m.Associations.foldl (associationStep nm) (columnFields nm m)

/-! ## Values of the naming libraries on the identifiers of the examples -/

/-- The results of `pluralize.Client.Singular` on the identifiers used in the
examples; other strings are left as they are. -/
def sampleSingular : String → String
  | "posts" => "post"
  | "Posts" => "Post"
  | "users" => "user"
  | "profiles" => "profile"
  | "tags" => "tag"
  | "schemas" => "schema"
  | "Schemas" => "Schema"
  | s => s

/-- The results of `pluralize.Client.Plural` on the identifiers used in the
examples (`schema` has the irregular plural `schemata`); other strings are left
as they are. -/
def samplePlural : String → String
  | "Post" => "Posts"
  | "User" => "Users"
  | "Profile" => "Profiles"
  | "Tag" => "Tags"
  | "Schema" => "Schemata"
  | s => s

/-- The results of `strcase.ToCamel` on the identifiers used in the examples;
other strings are left as they are. -/
def sampleToCamel : String → String
  | "id" => "Id"
  | "name" => "Name"
  | "title" => "Title"
  | "post" => "Post"
  | "posts" => "Posts"
  | "user" => "User"
  | "profile" => "Profile"
  | "tag" => "Tag"
  | "item_id" => "ItemId"
  | "identifier" => "Identifier"
  | "identity_id" => "IdentityId"
  | "schema" => "Schema"
  | "schemas" => "Schemas"
  | "user_id" => "UserId"
  | "userId" => "UserId"
  | s => s

/-- The naming functions on the identifiers of the examples. -/
def sampleNamer : Namer :=
  { singular := sampleSingular, plural := samplePlural, toCamel := sampleToCamel }

/-! ## Example schemas -/

/-- A blog schema: `posts.user_id` references `users`; `comments.post_id` and
`comments.reply_post_id` both reference `posts`; `tags` has no foreign key. -/
def blogTables : List (String × List Column) :=
  [("users", [⟨"id", "int"⟩, ⟨"name", "string"⟩]),
   ("posts", [⟨"id", "int"⟩, ⟨"title", "string"⟩, ⟨"user_id", "int"⟩]),
   ("comments", [⟨"id", "int"⟩, ⟨"post_id", "int"⟩, ⟨"reply_post_id", "null.Int"⟩]),
   ("tags", [⟨"id", "int"⟩, ⟨"label", "string"⟩])]

/-- The constraint-to-parent map of the blog schema. -/
def blogBelongsTables : List (String × String) :=
  buildBelongsTables
    [⟨"posts_user_id_fkey", "users"⟩,
     ⟨"comments_post_id_fkey", "posts"⟩,
     ⟨"comments_reply_post_id_fkey", "posts"⟩]

/-- The constraint-owner rows of the blog schema. -/
def blogBelongsToRows : List BelongsToRow :=
  [⟨"posts", "user_id", "posts_user_id_fkey", "FOREIGN KEY"⟩,
   ⟨"comments", "post_id", "comments_post_id_fkey", "FOREIGN KEY"⟩,
   ⟨"comments", "reply_post_id", "comments_reply_post_id_fkey", "FOREIGN KEY"⟩]

/-- The has-relation rows of the blog schema. -/
def blogHasRows : List HasRelationRow :=
  [⟨"users", "posts", "user_id", "FOREIGN KEY"⟩,
   ⟨"posts", "comments", "post_id", "FOREIGN KEY"⟩,
   ⟨"posts", "comments", "reply_post_id", "FOREIGN KEY"⟩]

/-- A has-relation stream in which `profiles` refers to `users` once through a
foreign key and, later, once through a uniqueness constraint, after a row for
`posts`. -/
def profileRowsPostsFirst : List HasRelationRow :=
  [⟨"users", "posts", "user_id", "FOREIGN KEY"⟩,
   ⟨"users", "profiles", "user_id", "FOREIGN KEY"⟩,
   ⟨"users", "profiles", "user_id", "UNIQUE"⟩]

/-- The rows of `profileRowsPostsFirst` with the first two exchanged. -/
def profileRowsProfilesFirst : List HasRelationRow :=
  [⟨"users", "profiles", "user_id", "FOREIGN KEY"⟩,
   ⟨"users", "posts", "user_id", "FOREIGN KEY"⟩,
   ⟨"users", "profiles", "user_id", "UNIQUE"⟩]

/-- The `(Name, Type)` pairs of an association list. -/
def nameTypePairs (l : List Association) : List (String × String) :=
  l.map (fun a => (a.Name, a.Typ))

/-- A `users` table with a column `profile`. -/
def profileColumnTables : List (String × List Column) :=
  [("users", [⟨"id", "int"⟩, ⟨"profile", "*datatypes.JSON"⟩])]

/-- A has-relation row for the child table `profiles` of `users`. -/
def profilesRow : HasRelationRow := ⟨"users", "profiles", "user_id", "FOREIGN KEY"⟩

/-- A model with the two columns `user_id` and `userId`. -/
def twoUserIdModel : Model :=
  { Name := "accounts", Fields := [⟨"user_id", "int"⟩, ⟨"userId", "int"⟩], Associations := [] }

/-- A model with a column `schemas` and a `hasMany` association to the table
`schemas`. -/
def schemasModel : Model :=
  { Name := "catalogs", Fields := [⟨"schemas", "pq.Int32Array"⟩],
    Associations := [⟨"schemas", associateHasMany, ""⟩] }

/-- The model of `users` with its `hasMany` association to `posts`. -/
def usersModel : Model :=
  { Name := "users", Fields := [⟨"id", "int"⟩, ⟨"name", "string"⟩],
    Associations := [⟨"posts", associateHasMany, ""⟩] }

/-- The association list stored for a table, empty when the table has no entry. -/
def listOf (m : List (String × List Association)) (T : String) : List Association :=
  (mapGet m T).getD []

/-- The invariant of the belongs-to pass: in every list the names are pairwise
distinct and every association is a `belongsTo`. -/
def BelongsInv (m : List (String × List Association)) : Prop :=
  ∀ T, ((listOf m T).map Association.Name).Nodup ∧
    ∀ a ∈ listOf m T, a.Typ = associateBelongsTo

/-! ## Column type mapping (`schema2config.go`, lines 86-149) -/

/-- One row of the table/column query. -/
structure CatalogRow where
  tableName : String
  columnName : String
  isNullable : String
  dataType : String
deriving DecidableEq, Repr

/-- Lines 96-134: the variable `columnType` after the two `switch` statements. It
starts as the empty string, and the `default` branches only print. -/
def columnType (isNullable dataType : String) : String :=
  if isNullable = "YES" then
    if dataType = "integer" ∨ dataType = "smallint" then "null.Int"
    else if dataType = "real" ∨ dataType = "numeric" ∨ dataType = "double precision" then
      "null.Float"
    else if dataType = "text" then "null.String"
    else if dataType = "boolean" then "null.Bool"
    else if dataType = "jsonb" then "*datatypes.JSON"
    else if dataType = "date" ∨ dataType = "time with time zone"
        ∨ dataType = "timestamp with time zone" then "null.Time"
    else if dataType = "ARRAY" then "pq.Int32Array"
    else ""
  else
    if dataType = "integer" ∨ dataType = "smallint" then "int"
    else if dataType = "real" ∨ dataType = "numeric" ∨ dataType = "double precision" then
      "float64"
    else if dataType = "text" then "string"
    else if dataType = "boolean" then "bool"
    else if dataType = "date" ∨ dataType = "timestamp with time zone" then "time.Time"
    else if dataType = "time with time zone" then "datatypes.Time"
    else if dataType = "ARRAY" then "pq.Int32Array"
    else ""

/-- Lines 95-148: the body of the loop over the rows of the table/column query. -/
def tablesStep (tables : List (String × List Column)) (r : CatalogRow) :
    List (String × List Column) :=
  let column : Column := { Name := r.columnName, Typ := columnType r.isNullable r.dataType }
  match mapGet tables r.tableName with
  | some columns => mapSet tables r.tableName (columns ++ [column])
  | none => mapSet tables r.tableName [column]

/-- Lines 86-149: the map `tables`. -/
def buildTables (rows : List CatalogRow) : List (String × List Column) :=
  rows.foldl tablesStep []

/-- The type strings that the two `switch` statements assign. -/
def typeVocabulary : List String :=
  ["null.Int", "null.Float", "null.String", "null.Bool", "*datatypes.JSON", "null.Time",
   "pq.Int32Array", "int", "float64", "string", "bool", "time.Time", "datatypes.Time"]

/-! ## Import selection (`config2model.go`, lines 47-71) -/

/-- Whether the first list is a prefix of the second. -/
def hasPrefixChars : List Char → List Char → Bool
  | [], _ => true
  | _ :: _, [] => false
  | p :: ps, c :: cs => p == c && hasPrefixChars ps cs

/-- Whether the first list occurs in the second as a contiguous block. -/
def containsChars (sub : List Char) : List Char → Bool
  | [] => hasPrefixChars sub []
  | c :: cs => hasPrefixChars sub (c :: cs) || containsChars sub cs

/-- The call `strings.Contains(s, substr)`. -/
def stringsContains (s substr : String) : Bool := containsChars substr.data s.data

/-- The map `packages` of lines 50-55: marker and import path. -/
def packages : List (String × String) :=
  [("time", "\"time\""),
   ("null", "\"gopkg.in/guregu/null.v4\""),
   ("datatypes", "\"gorm.io/datatypes\""),
   ("pq", "\"github.com/lib/pq\"")]

/-- Lines 58-70: the loop over `model.Fields` for one package, left at the first
field whose type contains the marker. -/
def importFor (pk pv : String) : List Column → List String
  | [] => []
  | f :: rest => if stringsContains f.Typ pk then [pv] else importFor pk pv rest

/-- Lines 57-71: the paths of `importSpecs`, for the entries of `packages` in the
order `pkgs` in which the `range` over the map visits them. -/
def importSpecs (pkgs : List (String × String)) (m : Model) : List String :=
  pkgs.foldl (fun specs p => specs ++ importFor p.1 p.2 m.Fields) []

/-- A type string with a leading `*` removed. -/
def stripStar (t : String) : List Char :=
  match t.data with
  | '*' :: rest => rest
  | l => l

/-- Whether a type string, after an optional leading `*`, starts with the marker
followed by a dot. -/
def referencesPackage (t marker : String) : Bool :=
  hasPrefixChars (marker.data ++ ['.']) (stripStar t)

/-! ## The merger, association by association -/

/-- Lines 116-159: the field of the `switch` over `a.Type`, if a case matches. -/
def associationField (nm : Namer) (a : Association) : Option Field :=
  if a.Typ == associateHasOne || a.Typ == associateBelongsTo then
    some { name := nm.toCamel (nm.singular a.Name),
           typeExpr := "*" ++ nm.toCamel (nm.singular a.Name) }
  else if a.Typ == associateHasMany then
    some { name := nm.plural (nm.toCamel a.Name),
           typeExpr := "[]*" ++ nm.singular (nm.toCamel a.Name) }
  else none

/-- The fields of the surviving associations, written from section 4.3 of the
specification for comparison with `mergeFields`: the associations are taken in
their order, with the output so far; an association whose candidate name, or its
plural, is a field name of the output so far is dropped; any other contributes
the field of its kind, which joins the output. -/
def survivingFields (nm : Namer) : List Field → List Association → List Field
  | _, [] => []
  | out, a :: rest =>
    if isExist nm out a then survivingFields nm out rest
    else
      match associationField nm a with
      | some f => f :: survivingFields nm (out ++ [f]) rest
      | none => survivingFields nm out rest

/-- No table of the map has an empty association list. -/
def NoEmptyList (m : List (String × List Association)) : Prop :=
  ∀ T, mapGet m T ≠ some []

/-! ## Further example schemas -/

/-- The constraint-to-parent map when `users.profile_id` references `profiles`. -/
def mutualBelongsTables : List (String × String) :=
  buildBelongsTables [⟨"users_profile_id_fkey", "profiles"⟩]

/-- The constraint-owner row of `users.profile_id`. -/
def mutualBelongsToRows : List BelongsToRow :=
  [⟨"users", "profile_id", "users_profile_id_fkey", "FOREIGN KEY"⟩]

/-- A has-relation row in which `profiles` refers to `users` through a uniqueness
constraint. -/
def mutualHasRows : List HasRelationRow :=
  [⟨"users", "profiles", "user_id", "UNIQUE"⟩]

/-- The catalog rows of `users(id, name)` and `posts(id, title, user_id)`, all
columns not nullable. -/
def usersPostsCatalogRows : List CatalogRow :=
  [⟨"users", "id", "NO", "integer"⟩,
   ⟨"users", "name", "NO", "text"⟩,
   ⟨"posts", "id", "NO", "integer"⟩,
   ⟨"posts", "title", "NO", "text"⟩,
   ⟨"posts", "user_id", "NO", "integer"⟩]

/-- The foreign key `posts.user_id` to `users.id`: its constraint resolves to
`users`. -/
def usersPostsBelongsTables : List (String × String) :=
  buildBelongsTables [⟨"posts_user_id_fkey", "users"⟩]

/-- The constraint-owner row of `posts.user_id`. -/
def usersPostsBelongsToRows : List BelongsToRow :=
  [⟨"posts", "user_id", "posts_user_id_fkey", "FOREIGN KEY"⟩]

/-- The has-relation row of `posts.user_id`. -/
def usersPostsHasRows : List HasRelationRow :=
  [⟨"users", "posts", "user_id", "FOREIGN KEY"⟩]

/-- A model as `config2model` reads it back from `model_config.json`: the field
`ConstraintType` has the tag `json:"-"` and comes back empty. -/
def persisted (m : Model) : Model :=
  { m with Associations := m.Associations.map (fun a => { a with ConstraintType := "" }) }

/-! ## Lemmas on maps -/

theorem mapGet_mapSet_same {β : Type} (m : List (String × β)) (k : String) (v : β) :
    mapGet (mapSet m k v) k = some v := by
  induction m with
  | nil => simp [mapSet, mapGet]
  | cons hd tl ih =>
    obtain ⟨k', v'⟩ := hd
    by_cases h : k' = k
    · simp [mapSet, mapGet, h]
    · simp [mapSet, mapGet, h, ih]

theorem mapGet_mapSet_other {β : Type} (m : List (String × β)) (k k' : String) (v : β)
    (h : k' ≠ k) : mapGet (mapSet m k v) k' = mapGet m k' := by
  induction m with
  | nil => simp [mapSet, mapGet, Ne.symm h]
  | cons hd tl ih =>
    obtain ⟨k0, v0⟩ := hd
    by_cases h0 : k0 = k
    · subst h0
      simp [mapSet, mapGet, Ne.symm h]
    · by_cases h1 : k0 = k'
      · subst h1
        simp [mapSet, mapGet, h0]
      · simp [mapSet, mapGet, h0, h1, ih]

theorem mem_mapKeys_mapSet {β : Type} (m : List (String × β)) (k x : String) (v : β) :
    x ∈ mapKeys (mapSet m k v) ↔ x ∈ mapKeys m ∨ x = k := by
  induction m with
  | nil => simp [mapSet, mapKeys]
  | cons hd tl ih =>
    obtain ⟨k0, v0⟩ := hd
    by_cases h0 : k0 = k
    · subst h0
      simp only [mapSet, mapKeys, if_true, List.map_cons, List.mem_cons]
      tauto
    · simp only [mapKeys] at ih
      simp [mapSet, mapKeys, h0, ih, or_assoc]

theorem nodup_mapKeys_mapSet {β : Type} (m : List (String × β)) (k : String) (v : β)
    (h : (mapKeys m).Nodup) : (mapKeys (mapSet m k v)).Nodup := by
  induction m with
  | nil => simp [mapSet, mapKeys]
  | cons hd tl ih =>
    obtain ⟨k0, v0⟩ := hd
    have h' : k0 ∉ mapKeys tl ∧ (mapKeys tl).Nodup := by
      simpa [mapKeys] using h
    by_cases h0 : k0 = k
    · subst h0
      simpa [mapSet, mapKeys] using h
    · have hmem : k0 ∉ mapKeys (mapSet tl k v) := by
        rw [mem_mapKeys_mapSet]
        simp [h'.1, h0]
      have := ih h'.2
      simp only [mapKeys] at this hmem
      simp [mapSet, mapKeys, h0, this, hmem]

theorem mapGet_isSome_iff {β : Type} (m : List (String × β)) (k : String) :
    (mapGet m k).isSome = true ↔ k ∈ mapKeys m := by
  induction m with
  | nil => simp [mapGet, mapKeys]
  | cons hd tl ih =>
    obtain ⟨k0, v0⟩ := hd
    by_cases h0 : k0 = k
    · simp [mapGet, mapKeys, h0]
    · simp only [mapKeys] at ih
      simp [mapGet, mapKeys, h0, ih, Ne.symm h0]

/-! ## The belongs-to pass -/

theorem listOf_mapSet_same (m : List (String × List Association)) (T : String)
    (l : List Association) : listOf (mapSet m T l) T = l := by
  simp [listOf, mapGet_mapSet_same]

theorem listOf_mapSet_other (m : List (String × List Association)) (T T' : String)
    (l : List Association) (h : T' ≠ T) : listOf (mapSet m T l) T' = listOf m T' := by
  simp [listOf, mapGet_mapSet_other m T T' l h]

theorem mapGet_of_listOf_ne_nil (m : List (String × List Association)) (T : String)
    (h : listOf m T ≠ []) : mapGet m T = some (listOf m T) := by
  unfold listOf at h ⊢
  cases hg : mapGet m T with
  | none => simp [hg] at h
  | some l => simp

/-- The belongs-to step on the list of the row's table, when the constraint resolves. -/
theorem belongsToStep_resolved (bt : List (String × String))
    (m : List (String × List Association)) (r : BelongsToRow) (P : String)
    (h : mapGet bt r.constraintName = some P) :
    belongsToStep bt m r = mapSet m r.tableName
      (match mapGet m r.tableName with
       | some v =>
         if v.any (fun a => a.Name == P) then v
         else v ++ [{ Name := P, Typ := associateBelongsTo, ConstraintType := r.constraintType }]
       | none => [{ Name := P, Typ := associateBelongsTo, ConstraintType := r.constraintType }]) := by
  unfold belongsToStep
  simp only [h]
  cases hg : mapGet m r.tableName with
  | none => simp
  | some v =>
    by_cases hx : v.any (fun a => a.Name == P) = true
    · simp [hx]
    · simp [hx]

theorem belongsToStep_unresolved (bt : List (String × String))
    (m : List (String × List Association)) (r : BelongsToRow)
    (h : mapGet bt r.constraintName = none) : belongsToStep bt m r = m := by
  unfold belongsToStep
  simp [h]

/-- Each belongs-to step leaves a table's list as it is or appends one `belongsTo`
association whose name is not yet in the list. -/
theorem belongsToStep_listOf (bt : List (String × String))
    (m : List (String × List Association)) (r : BelongsToRow) (T : String) :
    listOf (belongsToStep bt m r) T = listOf m T ∨
    ∃ a, listOf (belongsToStep bt m r) T = listOf m T ++ [a] ∧
      a.Typ = associateBelongsTo ∧ a.Name ∉ (listOf m T).map Association.Name ∧
      T = r.tableName ∧ mapGet bt r.constraintName = some a.Name := by
  cases h : mapGet bt r.constraintName with
  | none => left; rw [belongsToStep_unresolved bt m r h]
  | some P =>
    rw [belongsToStep_resolved bt m r P h]
    by_cases hT : T = r.tableName
    · subst hT
      rw [listOf_mapSet_same]
      cases hg : mapGet m r.tableName with
      | none =>
        right
        exact ⟨{ Name := P, Typ := associateBelongsTo, ConstraintType := r.constraintType },
          by simp [listOf, hg], rfl, by simp [listOf, hg], rfl, rfl⟩
      | some v =>
        by_cases hx : v.any (fun a => a.Name == P) = true
        · left; simp [hx, listOf, hg]
        · right
          refine ⟨{ Name := P, Typ := associateBelongsTo, ConstraintType := r.constraintType },
            by simp [hx, listOf, hg], rfl, ?_, rfl, rfl⟩
          simp only [listOf, hg, Option.getD_some]
          intro hmem
          apply hx
          rw [List.any_eq_true]
          obtain ⟨a, ha, hname⟩ := List.mem_map.mp hmem
          exact ⟨a, ha, by simp [hname]⟩
    · left
      exact listOf_mapSet_other m r.tableName T _ hT

/-- After a step whose constraint resolves to `P`, the row's table lists `P`. -/
theorem belongsToStep_mem (bt : List (String × String))
    (m : List (String × List Association)) (r : BelongsToRow) (P : String)
    (h : mapGet bt r.constraintName = some P) :
    P ∈ (listOf (belongsToStep bt m r) r.tableName).map Association.Name := by
  rw [belongsToStep_resolved bt m r P h, listOf_mapSet_same]
  cases hg : mapGet m r.tableName with
  | none => simp
  | some v =>
    by_cases hx : v.any (fun a => a.Name == P) = true
    · simp only [hx, if_true]
      rw [List.any_eq_true] at hx
      obtain ⟨a, ha, hname⟩ := hx
      exact List.mem_map.mpr ⟨a, ha, by simpa using hname⟩
    · simp [hx]

theorem belongsInv_nil : BelongsInv [] := by
  intro T
  simp [listOf, mapGet]

theorem belongsInv_step (bt : List (String × String))
    (m : List (String × List Association)) (r : BelongsToRow) (h : BelongsInv m) :
    BelongsInv (belongsToStep bt m r) := by
  intro T
  rcases belongsToStep_listOf bt m r T with heq | ⟨a, heq, htyp, hnew, -, -⟩
  · rw [heq]; exact h T
  · rw [heq]
    constructor
    · rw [List.map_append, List.nodup_append]
      refine ⟨(h T).1, by simp, ?_⟩
      intro x hx hx'
      simp only [List.map_cons, List.map_nil, List.mem_singleton] at hx'
      subst hx'
      exact hnew hx
    · intro b hb
      rcases List.mem_append.mp hb with hb | hb
      · exact (h T).2 b hb
      · simp only [List.mem_singleton] at hb
        subst hb
        exact htyp

theorem belongsInv_pass (bt : List (String × String)) (rows : List BelongsToRow)
    (m : List (String × List Association)) (h : BelongsInv m) :
    BelongsInv (belongsToPass bt rows m) := by
  induction rows generalizing m with
  | nil => exact h
  | cons r rest ih => exact ih _ (belongsInv_step bt m r h)

theorem belongsToStep_mono (bt : List (String × String))
    (m : List (String × List Association)) (r : BelongsToRow) (T P : String)
    (h : P ∈ (listOf m T).map Association.Name) :
    P ∈ (listOf (belongsToStep bt m r) T).map Association.Name := by
  rcases belongsToStep_listOf bt m r T with heq | ⟨a, heq, -⟩
  · rw [heq]; exact h
  · rw [heq, List.map_append]
    exact List.mem_append_left _ h

theorem belongsToPass_mono (bt : List (String × String)) (rows : List BelongsToRow)
    (m : List (String × List Association)) (T P : String)
    (h : P ∈ (listOf m T).map Association.Name) :
    P ∈ (listOf (belongsToPass bt rows m) T).map Association.Name := by
  induction rows generalizing m with
  | nil => exact h
  | cons r rest ih => exact ih _ (belongsToStep_mono bt m r T P h)

theorem belongsToPass_mem (bt : List (String × String)) (rows : List BelongsToRow)
    (m : List (String × List Association)) (r : BelongsToRow) (P : String)
    (hr : r ∈ rows) (h : mapGet bt r.constraintName = some P) :
    P ∈ (listOf (belongsToPass bt rows m) r.tableName).map Association.Name := by
  induction rows generalizing m with
  | nil => simp at hr
  | cons r' rest ih =>
    rcases List.mem_cons.mp hr with heq | hmem
    · subst heq
      exact belongsToPass_mono bt rest _ _ _ (belongsToStep_mem bt m r P h)
    · exact ih _ hmem

/-- In a list with pairwise distinct names, a name that occurs is carried by
exactly one entry. -/
theorem filter_name_length_eq_one (l : List Association) (P : String)
    (hnd : (l.map Association.Name).Nodup) (hm : P ∈ l.map Association.Name) :
    (l.filter (fun a => decide (a.Name = P))).length = 1 := by
  induction l with
  | nil => simp at hm
  | cons a tl ih =>
    rw [List.map_cons, List.nodup_cons] at hnd
    by_cases ha : a.Name = P
    · have hnil : tl.filter (fun a => decide (a.Name = P)) = [] := by
        rw [List.filter_eq_nil_iff]
        intro b hb hbn
        apply hnd.1
        rw [ha]
        exact List.mem_map.mpr ⟨b, hb, by simpa using hbn⟩
      simp [List.filter_cons, ha, hnil]
    · have hm' : P ∈ tl.map Association.Name := by
        rcases List.mem_map.mp hm with ⟨b, hb, hbn⟩
        rcases List.mem_cons.mp hb with hb | hb
        · subst hb; exact absurd hbn ha
        · exact List.mem_map.mpr ⟨b, hb, hbn⟩
      simp [List.filter_cons, ha, ih hnd.2 hm']

/-- C7. Belongs-to collapsing: when two or more rows of the constraint-owner
stream are owned by table `T` and resolve to parent `P`, the belongs-to pass from
the empty map leaves `T` a list with exactly one association named `P`, of type
`belongsTo`; and every step of the pass leaves a list as it is or appends one
association whose name no earlier entry of that list carries. -/
theorem belongsToPass_collapses (belongsTables : List (String × String))
    (rows : List BelongsToRow) (T P : String)
    (h : 2 ≤ (rows.filter (fun r =>
      decide (r.tableName = T ∧ mapGet belongsTables r.constraintName = some P))).length) :
    (∃ l, mapGet (belongsToPass belongsTables rows []) T = some l ∧
      (l.filter (fun a => decide (a.Name = P))).length = 1 ∧
      ∀ a ∈ l, a.Name = P → a.Typ = associateBelongsTo) ∧
    ∀ (associations : List (String × List Association)) (r : BelongsToRow) (T' : String),
      (mapGet (belongsToStep belongsTables associations r) T').getD [] =
          (mapGet associations T').getD [] ∨
      ∃ a, (mapGet (belongsToStep belongsTables associations r) T').getD [] =
          (mapGet associations T').getD [] ++ [a] ∧
        ∀ b ∈ (mapGet associations T').getD [], b.Name ≠ a.Name := by
  constructor
  · have hne : rows.filter (fun r =>
        decide (r.tableName = T ∧ mapGet belongsTables r.constraintName = some P)) ≠ [] := by
      intro hnil
      rw [hnil] at h
      simp at h
    obtain ⟨r, hr⟩ := List.exists_mem_of_ne_nil _ hne
    rw [List.mem_filter] at hr
    obtain ⟨hrows, hp⟩ := hr
    simp only [decide_eq_true_eq] at hp
    obtain ⟨hT, hP⟩ := hp
    have hmem := belongsToPass_mem belongsTables rows [] r P hrows hP
    rw [hT] at hmem
    have hinv := belongsInv_pass belongsTables rows [] belongsInv_nil T
    have hnn : listOf (belongsToPass belongsTables rows []) T ≠ [] := by
      intro hnil
      rw [hnil] at hmem
      simp at hmem
    refine ⟨_, mapGet_of_listOf_ne_nil _ T hnn, ?_, ?_⟩
    · exact filter_name_length_eq_one _ P hinv.1 hmem
    · intro a ha _
      exact hinv.2 a ha
  · intro associations r T'
    rcases belongsToStep_listOf belongsTables associations r T' with heq | ⟨a, heq, -, hnew, -, -⟩
    · left; exact heq
    · right
      refine ⟨a, heq, ?_⟩
      intro b hb hbn
      exact hnew (List.mem_map.mpr ⟨b, hb, hbn⟩)

/-! ## The merger -/

theorem isExist_eq_true_iff (nm : Namer) (fields : List Field) (a : Association) :
    isExist nm fields a = true ↔
      ∃ f ∈ fields, f.name = nm.toCamel (nm.singular a.Name) ∨
        f.name = nm.plural (nm.toCamel (nm.singular a.Name)) := by
  unfold isExist
  rw [List.any_eq_true]
  constructor
  · rintro ⟨f, hf, h⟩
    refine ⟨f, hf, ?_⟩
    simp only [Bool.or_eq_true, beq_iff_eq] at h
    rcases h with h | h
    · exact Or.inl h.symm
    · exact Or.inr h.symm
  · rintro ⟨f, hf, h⟩
    refine ⟨f, hf, ?_⟩
    simp only [Bool.or_eq_true, beq_iff_eq]
    rcases h with h | h
    · exact Or.inl h.symm
    · exact Or.inr h.symm

theorem mergeFields_snoc (nm : Namer) (name : String) (cols : List Column)
    (pre : List Association) (a : Association) :
    mergeFields nm ⟨name, cols, pre ++ [a]⟩ =
      associationStep nm (mergeFields nm ⟨name, cols, pre⟩) a := by
  simp [mergeFields, columnFields, List.foldl_append]

theorem mergeFields_split (nm : Namer) (name : String) (cols : List Column)
    (pre post : List Association) (a : Association) :
    mergeFields nm ⟨name, cols, pre ++ a :: post⟩ =
      post.foldl (associationStep nm) (mergeFields nm ⟨name, cols, pre ++ [a]⟩) := by
  simp [mergeFields, columnFields, List.foldl_append]

theorem associationStep_of_isExist (nm : Namer) (fields : List Field) (a : Association)
    (h : isExist nm fields a = true) : associationStep nm fields a = fields := by
  simp [associationStep, h]

theorem associationStep_pointer (nm : Namer) (fields : List Field) (a : Association)
    (h : isExist nm fields a = false)
    (htyp : a.Typ = associateBelongsTo ∨ a.Typ = associateHasOne) :
    associationStep nm fields a =
      fields ++ [{ name := nm.toCamel (nm.singular a.Name),
                   typeExpr := "*" ++ nm.toCamel (nm.singular a.Name) }] := by
  rcases htyp with ht | ht
  · simp [associationStep, h, ht]
  · simp [associationStep, h, ht]

theorem associationStep_hasMany (nm : Namer) (fields : List Field) (a : Association)
    (h : isExist nm fields a = false) (htyp : a.Typ = associateHasMany) :
    associationStep nm fields a =
      fields ++ [{ name := nm.plural (nm.toCamel a.Name),
                   typeExpr := "[]*" ++ nm.singular (nm.toCamel a.Name) }] := by
  have h1 : (associateHasMany == associateHasOne) = false := by decide
  have h2 : (associateHasMany == associateBelongsTo) = false := by decide
  simp only [associationStep, h, htyp, h1, h2]
  simp

/-- C8. Merger drop rule: with `out` the field list when association `a` is
reached (the column fields and the fields of the associations before `a`) and
`n = toCamel (singular a.Name)`: if `n` or `plural n` names a field of `out`, the
list after `a` is `out`; if neither does and `a.Typ` is `belongsTo`, `hasOne` or
`hasMany`, the list after `a` is `out` with exactly one field appended; and the
associations after `a` continue from that list. -/
theorem mergeFields_drop_rule (nm : Namer) (name : String) (cols : List Column)
    (pre post : List Association) (a : Association) :
    ((∃ f ∈ mergeFields nm ⟨name, cols, pre⟩,
        f.name = nm.toCamel (nm.singular a.Name) ∨
        f.name = nm.plural (nm.toCamel (nm.singular a.Name))) →
      mergeFields nm ⟨name, cols, pre ++ [a]⟩ = mergeFields nm ⟨name, cols, pre⟩) ∧
    ((¬ ∃ f ∈ mergeFields nm ⟨name, cols, pre⟩,
        f.name = nm.toCamel (nm.singular a.Name) ∨
        f.name = nm.plural (nm.toCamel (nm.singular a.Name))) →
      (a.Typ = associateBelongsTo ∨ a.Typ = associateHasOne ∨ a.Typ = associateHasMany) →
      ∃ f, mergeFields nm ⟨name, cols, pre ++ [a]⟩ = mergeFields nm ⟨name, cols, pre⟩ ++ [f]) ∧
    mergeFields nm ⟨name, cols, pre ++ a :: post⟩ =
      post.foldl (associationStep nm) (mergeFields nm ⟨name, cols, pre ++ [a]⟩) := by
  refine ⟨?_, ?_, mergeFields_split nm name cols pre post a⟩
  · intro h
    rw [mergeFields_snoc]
    exact associationStep_of_isExist nm _ a ((isExist_eq_true_iff nm _ a).mpr h)
  · intro h htyp
    rw [mergeFields_snoc]
    have hx : isExist nm (mergeFields nm ⟨name, cols, pre⟩) a = false := by
      rw [Bool.eq_false_iff]
      intro hx
      exact h ((isExist_eq_true_iff nm _ a).mp hx)
    rcases htyp with ht | ht | ht
    · exact ⟨_, associationStep_pointer nm _ a hx (Or.inl ht)⟩
    · exact ⟨_, associationStep_pointer nm _ a hx (Or.inr ht)⟩
    · exact ⟨_, associationStep_hasMany nm _ a hx ht⟩

/-- C10. BelongsTo/HasOne field shape: an association `a` of type `belongsTo` or
`hasOne` that survives the drop check on the field list `fields` appends exactly
one field, named `s = toCamel (singular a.Name)` and of type `"*" ++ s`. -/
theorem associationStep_single_reference (nm : Namer) (fields : List Field) (a : Association)
    (hsurvives : isExist nm fields a = false)
    (htyp : a.Typ = associateBelongsTo ∨ a.Typ = associateHasOne) :
    associationStep nm fields a =
      fields ++ [{ name := nm.toCamel (nm.singular a.Name),
                   typeExpr := "*" ++ nm.toCamel (nm.singular a.Name) }] :=
  associationStep_pointer nm fields a hsurvives htyp

/-- The three outcomes of one merger step. -/
theorem associationStep_cases (nm : Namer) (fields : List Field) (a : Association) :
    associationStep nm fields a = fields ∨
    (isExist nm fields a = false ∧
      associationStep nm fields a =
        fields ++ [{ name := nm.toCamel (nm.singular a.Name),
                     typeExpr := "*" ++ nm.toCamel (nm.singular a.Name) }]) ∨
    (isExist nm fields a = false ∧ a.Typ = associateHasMany ∧
      associationStep nm fields a =
        fields ++ [{ name := nm.plural (nm.toCamel a.Name),
                     typeExpr := "[]*" ++ nm.singular (nm.toCamel a.Name) }]) := by
  cases hx : isExist nm fields a with
  | true => exact Or.inl (associationStep_of_isExist nm fields a hx)
  | false =>
    by_cases h1 : a.Typ = associateHasOne
    · exact Or.inr (Or.inl ⟨rfl, associationStep_pointer nm fields a hx (Or.inr h1)⟩)
    · by_cases h2 : a.Typ = associateBelongsTo
      · exact Or.inr (Or.inl ⟨rfl, associationStep_pointer nm fields a hx (Or.inl h2)⟩)
      · by_cases h3 : a.Typ = associateHasMany
        · exact Or.inr (Or.inr ⟨rfl, h3, associationStep_hasMany nm fields a hx h3⟩)
        · left
          simp [associationStep, hx, h1, h2, h3]

theorem not_mem_names_of_isExist_false (nm : Namer) (fields : List Field) (a : Association)
    (h : isExist nm fields a = false) :
    nm.toCamel (nm.singular a.Name) ∉ fields.map Field.name ∧
    nm.plural (nm.toCamel (nm.singular a.Name)) ∉ fields.map Field.name := by
  have hn : ¬ ∃ f ∈ fields, f.name = nm.toCamel (nm.singular a.Name) ∨
      f.name = nm.plural (nm.toCamel (nm.singular a.Name)) := by
    intro hex
    have := (isExist_eq_true_iff nm fields a).mpr hex
    rw [h] at this
    exact Bool.false_ne_true this
  constructor
  · intro hm
    obtain ⟨f, hf, hname⟩ := List.mem_map.mp hm
    exact hn ⟨f, hf, Or.inl hname⟩
  · intro hm
    obtain ⟨f, hf, hname⟩ := List.mem_map.mp hm
    exact hn ⟨f, hf, Or.inr hname⟩

theorem nodup_names_snoc (fields : List Field) (f : Field)
    (h : (fields.map Field.name).Nodup) (hf : f.name ∉ fields.map Field.name) :
    ((fields ++ [f]).map Field.name).Nodup := by
  rw [List.map_append, List.nodup_append]
  refine ⟨h, by simp, ?_⟩
  intro x hx hx'
  simp only [List.map_cons, List.map_nil, List.mem_singleton] at hx'
  subst hx'
  exact hf hx

theorem associationStep_nodup (nm : Namer) (fields : List Field) (a : Association)
    (h : (fields.map Field.name).Nodup)
    (hmany : a.Typ = associateHasMany →
      nm.plural (nm.toCamel a.Name) = nm.plural (nm.toCamel (nm.singular a.Name))) :
    ((associationStep nm fields a).map Field.name).Nodup := by
  rcases associationStep_cases nm fields a with heq | ⟨hx, heq⟩ | ⟨hx, htyp, heq⟩
  · rw [heq]; exact h
  · rw [heq]
    exact nodup_names_snoc fields _ h (not_mem_names_of_isExist_false nm fields a hx).1
  · rw [heq]
    apply nodup_names_snoc fields _ h
    show nm.plural (nm.toCamel a.Name) ∉ fields.map Field.name
    rw [hmany htyp]
    exact (not_mem_names_of_isExist_false nm fields a hx).2

theorem foldl_associationStep_nodup (nm : Namer) (assocs : List Association)
    (fields : List Field) (h : (fields.map Field.name).Nodup)
    (hmany : ∀ a ∈ assocs, a.Typ = associateHasMany →
      nm.plural (nm.toCamel a.Name) = nm.plural (nm.toCamel (nm.singular a.Name))) :
    ((assocs.foldl (associationStep nm) fields).map Field.name).Nodup := by
  induction assocs generalizing fields with
  | nil => exact h
  | cons a rest ih =>
    rw [List.foldl_cons]
    apply ih
    · exact associationStep_nodup nm fields a h (hmany a (List.mem_cons_self a rest))
    · intro b hb
      exact hmany b (List.mem_cons_of_mem a hb)

/-- C3, as amended. For every model whose column fields (camel-cased, with the
first `Id` rewritten to `ID`) have pairwise distinct names, and in which the name
emitted for each `hasMany` association, `plural (toCamel Name)`, is the plural
`plural (toCamel (singular Name))` that the drop check compares, the merged field
list has no two fields with the same name. -/
theorem mergeFields_names_nodup (nm : Namer) (m : Model)
    (hcols : ((columnFields nm m).map Field.name).Nodup)
    (hmany : ∀ a ∈ m.Associations, a.Typ = associateHasMany →
      nm.plural (nm.toCamel a.Name) = nm.plural (nm.toCamel (nm.singular a.Name))) :
    ((mergeFields nm m).map Field.name).Nodup :=
  foldl_associationStep_nodup nm m.Associations (columnFields nm m) hcols hmany

/-! ### Model assembly -/

theorem belongsToStep_keys_nodup (bt : List (String × String))
    (m : List (String × List Association)) (r : BelongsToRow) (h : (mapKeys m).Nodup) :
    (mapKeys (belongsToStep bt m r)).Nodup := by
  cases hb : mapGet bt r.constraintName with
  | none => rw [belongsToStep_unresolved bt m r hb]; exact h
  | some P => rw [belongsToStep_resolved bt m r P hb]; exact nodup_mapKeys_mapSet m _ _ h

theorem hasRelationStep_keys_nodup (nm : Namer) (tables : List (String × List Column))
    (m : List (String × List Association)) (r : HasRelationRow) (h : (mapKeys m).Nodup) :
    (mapKeys (hasRelationStep nm tables m r)).Nodup := by
  unfold hasRelationStep
  cases mapGet m r.parent with
  | none => exact nodup_mapKeys_mapSet m _ _ h
  | some v => exact nodup_mapKeys_mapSet m _ _ h

theorem belongsToPass_keys_nodup (bt : List (String × String)) (rows : List BelongsToRow)
    (m : List (String × List Association)) (h : (mapKeys m).Nodup) :
    (mapKeys (belongsToPass bt rows m)).Nodup := by
  induction rows generalizing m with
  | nil => exact h
  | cons r rest ih => exact ih _ (belongsToStep_keys_nodup bt m r h)

theorem hasRelationPass_keys_nodup (nm : Namer) (tables : List (String × List Column))
    (rows : List HasRelationRow) (m : List (String × List Association))
    (h : (mapKeys m).Nodup) : (mapKeys (hasRelationPass nm tables rows m)).Nodup := by
  induction rows generalizing m with
  | nil => exact h
  | cons r rest ih => exact ih _ (hasRelationStep_keys_nodup nm tables m r h)

theorem classify_keys_nodup (nm : Namer) (tables : List (String × List Column))
    (bt : List (String × String)) (brows : List BelongsToRow) (hrows : List HasRelationRow) :
    (mapKeys (classify nm tables bt brows hrows)).Nodup :=
  hasRelationPass_keys_nodup nm tables hrows _
    (belongsToPass_keys_nodup bt brows [] (by simp [mapKeys]))

theorem assembleTable_nil_of_not_mem (tk : String) (tv : List Column)
    (m : List (String × List Association)) (h : tk ∉ mapKeys m) :
    assembleTable tk tv m = [] := by
  induction m with
  | nil => rfl
  | cons hd tl ih =>
    obtain ⟨ak, av⟩ := hd
    simp only [mapKeys, List.map_cons, List.mem_cons, not_or] at h
    have hne : (tk != ak) = true := by simpa using h.1
    simp only [assembleTable, hne, if_true]
    exact ih (by simpa [mapKeys] using h.2)

theorem assembleTable_length (tk : String) (tv : List Column)
    (m : List (String × List Association)) (h : (mapKeys m).Nodup) :
    (assembleTable tk tv m).length = if (mapGet m tk).isSome then 1 else 0 := by
  induction m with
  | nil => simp [assembleTable, mapGet]
  | cons hd tl ih =>
    obtain ⟨ak, av⟩ := hd
    have h' : ak ∉ mapKeys tl ∧ (mapKeys tl).Nodup := by simpa [mapKeys] using h
    by_cases hk : tk = ak
    · subst hk
      simp [assembleTable, mapGet, assembleTable_nil_of_not_mem tk tv tl h'.1]
    · have hne : (tk != ak) = true := by simpa using hk
      have hk' : ¬ ak = tk := fun e => hk e.symm
      simp only [assembleTable, hne, if_true, mapGet, hk', if_false]
      exact ih h'.2

theorem assemble_length (tables : List (String × List Column))
    (m : List (String × List Association)) (h : (mapKeys m).Nodup) :
    (assemble tables m).length =
      (tables.filter (fun t => (mapGet m t.1).isSome)).length := by
  induction tables with
  | nil => simp [assemble]
  | cons hd tl ih =>
    obtain ⟨tk, tv⟩ := hd
    simp only [assemble, List.length_append, ih, assembleTable_length tk tv m h,
      List.filter_cons]
    cases hg : (mapGet m tk).isSome with
    | true => simp; omega
    | false => simp

/-- C5, as amended. The number of models equals the number of entries of the
table map whose table has an entry in the association map that classification
produced; a table without such an entry yields no model. -/
theorem assemble_count (nm : Namer) (tables : List (String × List Column))
    (belongsTables : List (String × String)) (belongsToRows : List BelongsToRow)
    (hasRows : List HasRelationRow) :
    (assemble tables (classify nm tables belongsTables belongsToRows hasRows)).length =
      (tables.filter (fun t =>
        (mapGet (classify nm tables belongsTables belongsToRows hasRows) t.1).isSome)).length :=
  assemble_length tables _ (classify_keys_nodup nm tables belongsTables belongsToRows hasRows)

/-! ## The programme at concrete schemas -/

/-- C1. At the blog schema the two passes leave `posts` the list
`[users, comments, comments]`: the second row for `comments`, with the constraint
kind already recorded, appends a second entry, so the names are not pairwise
distinct. -/
theorem classify_blog_duplicate :
    mapGet (classify sampleNamer blogTables blogBelongsTables blogBelongsToRows blogHasRows)
        "posts" =
      some [⟨"users", associateBelongsTo, "FOREIGN KEY"⟩,
            ⟨"comments", associateHasMany, "FOREIGN KEY"⟩,
            ⟨"comments", associateHasMany, "FOREIGN KEY"⟩] ∧
    ¬ ((listOf (classify sampleNamer blogTables blogBelongsTables blogBelongsToRows
        blogHasRows) "posts").map Association.Name).Nodup ∧
    mapGet (hasRelationStep sampleNamer blogTables
        [("posts", [⟨"users", associateBelongsTo, "FOREIGN KEY"⟩,
                    ⟨"comments", associateHasMany, "FOREIGN KEY"⟩])]
        ⟨"posts", "comments", "reply_post_id", "FOREIGN KEY"⟩) "posts" ≠
      some [⟨"users", associateBelongsTo, "FOREIGN KEY"⟩,
            ⟨"comments", associateHasMany, "FOREIGN KEY"⟩] := by
  decide

/-- C2. With `posts` recorded first for `users`, the rows for `profiles` with the
kinds `FOREIGN KEY` and then `UNIQUE` leave two `hasMany` entries named `profiles`
and no `hasOne`. -/
theorem hasRelationPass_no_upgrade :
    mapGet (hasRelationPass sampleNamer [] profileRowsPostsFirst []) "users" =
      some [⟨"posts", associateHasMany, "FOREIGN KEY"⟩,
            ⟨"profiles", associateHasMany, "FOREIGN KEY"⟩,
            ⟨"profiles", associateHasMany, "UNIQUE"⟩] ∧
    (∀ a ∈ listOf (hasRelationPass sampleNamer [] profileRowsPostsFirst []) "users",
      a.Name = "profiles" → a.Typ ≠ associateHasOne) ∧
    (∃ a ∈ listOf (hasRelationPass sampleNamer [] profileRowsPostsFirst []) "users",
      a.Name = "profiles" ∧ a.Typ = associateHasMany) := by
  decide

/-- C4. The parent `users` has the column `profile`, whose singular equals that of
the child `profiles`; the column scan prints the child and the row is processed
all the same: `users` gets the association `profiles`. -/
theorem hasRelationStep_no_skip :
    sampleNamer.singular "profile" = sampleNamer.singular "profiles" ∧
    skipCheck sampleNamer profileColumnTables profilesRow = ["profiles"] ∧
    mapGet (hasRelationStep sampleNamer profileColumnTables [] profilesRow) "users" =
      some [⟨"profiles", associateHasMany, "FOREIGN KEY"⟩] ∧
    mapGet ([] : List (String × List Association)) "users" = none := by
  decide

/-- C5, counterexample. The blog schema has four tables, each with columns, and
three models: `tags`, which takes part in no relationship, yields none. -/
theorem assemble_blog_count :
    (∀ t ∈ blogTables, t.2 ≠ []) ∧ (mapKeys blogTables).Nodup ∧ blogTables.length = 4 ∧
    (assemble blogTables
      (classify sampleNamer blogTables blogBelongsTables blogBelongsToRows blogHasRows)).length
      = 3 ∧
    ∀ m ∈ assemble blogTables
      (classify sampleNamer blogTables blogBelongsTables blogBelongsToRows blogHasRows),
      m.Name ≠ "tags" := by
  decide

/-- C6. Two orders of the same three rows give `users` different sets of
`(Name, Type)` pairs: `profiles` is a `hasOne` in one and a `hasMany` in the
other. -/
theorem hasRelationPass_order_dependent :
    List.Perm profileRowsProfilesFirst profileRowsPostsFirst ∧
    ("profiles", associateHasOne) ∈
      nameTypePairs (listOf (hasRelationPass sampleNamer [] profileRowsProfilesFirst [])
        "users") ∧
    ("profiles", associateHasOne) ∉
      nameTypePairs (listOf (hasRelationPass sampleNamer [] profileRowsPostsFirst [])
        "users") := by
  decide

/-- C3, counterexample. Two models whose columns have pairwise distinct names and
whose merged field lists repeat a name: the columns `user_id` and `userId` both
give `UserID`, and the column `schemas` and the `hasMany` association `schemas`
both give `Schemas`. -/
theorem mergeFields_name_collision :
    (twoUserIdModel.Fields.map Column.Name).Nodup ∧
    (mergeFields sampleNamer twoUserIdModel).map Field.name = ["UserID", "UserID"] ∧
    (schemasModel.Fields.map Column.Name).Nodup ∧
    (mergeFields sampleNamer schemasModel).map Field.name = ["Schemas", "Schemas"] ∧
    ¬ ((mergeFields sampleNamer twoUserIdModel).map Field.name).Nodup ∧
    ¬ ((mergeFields sampleNamer schemasModel).map Field.name).Nodup := by
  decide

/-- C9. For the `hasMany` association `schemas` the emitted field is named
`Schemas`, while the plural that the drop check compares is `Schemata`; with the
field `Schemas` already present the association survives the check and the name
is emitted a second time. -/
theorem associationStep_hasMany_name_differs :
    isExist sampleNamer [] ⟨"schemas", associateHasMany, ""⟩ = false ∧
    associationStep sampleNamer [] ⟨"schemas", associateHasMany, ""⟩ =
      [⟨"Schemas", "[]*Schema"⟩] ∧
    sampleNamer.plural (sampleNamer.toCamel (sampleNamer.singular "schemas")) = "Schemata" ∧
    associationStep sampleNamer [⟨"Schemas", "pq.Int32Array"⟩]
        ⟨"schemas", associateHasMany, ""⟩ =
      [⟨"Schemas", "pq.Int32Array"⟩, ⟨"Schemas", "[]*Schema"⟩] := by
  decide

/-- The collapsing theorem at the blog schema: `comments` owns two constraints that
resolve to `posts`. -/
theorem belongsToPass_collapses_witness :
    2 ≤ (blogBelongsToRows.filter (fun r =>
      decide (r.tableName = "comments" ∧
        mapGet blogBelongsTables r.constraintName = some "posts"))).length ∧
    ((∃ l, mapGet (belongsToPass blogBelongsTables blogBelongsToRows []) "comments" = some l ∧
      (l.filter (fun a => decide (a.Name = "posts"))).length = 1 ∧
      ∀ a ∈ l, a.Name = "posts" → a.Typ = associateBelongsTo) ∧
    ∀ (associations : List (String × List Association)) (r : BelongsToRow) (T' : String),
      (mapGet (belongsToStep blogBelongsTables associations r) T').getD [] =
          (mapGet associations T').getD [] ∨
      ∃ a, (mapGet (belongsToStep blogBelongsTables associations r) T').getD [] =
          (mapGet associations T').getD [] ++ [a] ∧
        ∀ b ∈ (mapGet associations T').getD [], b.Name ≠ a.Name) :=
  ⟨by decide,
   belongsToPass_collapses blogBelongsTables blogBelongsToRows "comments" "posts" (by decide)⟩

/-- The collision-free theorem at the model of `users`. -/
theorem mergeFields_names_nodup_witness :
    ((columnFields sampleNamer usersModel).map Field.name).Nodup ∧
    (∀ a ∈ usersModel.Associations, a.Typ = associateHasMany →
      sampleNamer.plural (sampleNamer.toCamel a.Name) =
        sampleNamer.plural (sampleNamer.toCamel (sampleNamer.singular a.Name))) ∧
    ((mergeFields sampleNamer usersModel).map Field.name).Nodup :=
  ⟨by decide, by decide,
   mergeFields_names_nodup sampleNamer usersModel (by decide) (by decide)⟩

/-- The drop rule at two models of `users`: with the column `profile` the
association `profiles` is dropped; without a matching column the association
`posts` appends one field. -/
theorem mergeFields_drop_rule_witness :
    mergeFields sampleNamer
        ⟨"users", [⟨"id", "int"⟩, ⟨"profile", "*datatypes.JSON"⟩],
          [] ++ [⟨"profiles", associateHasMany, ""⟩]⟩ =
      mergeFields sampleNamer
        ⟨"users", [⟨"id", "int"⟩, ⟨"profile", "*datatypes.JSON"⟩], []⟩ ∧
    ∃ f, mergeFields sampleNamer
        ⟨"users", [⟨"id", "int"⟩, ⟨"name", "string"⟩],
          [] ++ [⟨"posts", associateHasMany, ""⟩]⟩ =
      mergeFields sampleNamer ⟨"users", [⟨"id", "int"⟩, ⟨"name", "string"⟩], []⟩ ++ [f] :=
  ⟨(mergeFields_drop_rule sampleNamer "users" [⟨"id", "int"⟩, ⟨"profile", "*datatypes.JSON"⟩]
      [] [] ⟨"profiles", associateHasMany, ""⟩).1 (by decide),
   (mergeFields_drop_rule sampleNamer "users" [⟨"id", "int"⟩, ⟨"name", "string"⟩]
      [] [] ⟨"posts", associateHasMany, ""⟩).2.1 (by decide) (by decide)⟩

/-- The single-reference shape at the `belongsTo` association `users` of `posts`. -/
theorem associationStep_single_reference_witness :
    isExist sampleNamer [⟨"ID", "int"⟩, ⟨"Title", "string"⟩, ⟨"UserID", "int"⟩]
        ⟨"users", associateBelongsTo, ""⟩ = false ∧
    associationStep sampleNamer [⟨"ID", "int"⟩, ⟨"Title", "string"⟩, ⟨"UserID", "int"⟩]
        ⟨"users", associateBelongsTo, ""⟩ =
      [⟨"ID", "int"⟩, ⟨"Title", "string"⟩, ⟨"UserID", "int"⟩] ++
        [{ name := sampleNamer.toCamel (sampleNamer.singular "users"),
           typeExpr := "*" ++ sampleNamer.toCamel (sampleNamer.singular "users") }] :=
  ⟨by decide,
   associationStep_single_reference sampleNamer
     [⟨"ID", "int"⟩, ⟨"Title", "string"⟩, ⟨"UserID", "int"⟩]
     ⟨"users", associateBelongsTo, ""⟩ (by decide) (Or.inl rfl)⟩

/-! ## Ordering of the merged fields -/

theorem associationStep_eq_field (nm : Namer) (fields : List Field) (a : Association) :
    associationStep nm fields a =
      if isExist nm fields a then fields
      else match associationField nm a with
        | some f => fields ++ [f]
        | none => fields := by
  unfold associationStep associationField
  by_cases hx : isExist nm fields a = true
  · simp [hx]
  · by_cases h1 : (a.Typ == associateHasOne || a.Typ == associateBelongsTo) = true
    · simp [hx, h1]
    · by_cases h2 : (a.Typ == associateHasMany) = true
      · simp [hx, h1, h2]
      · simp [hx, h1, h2]

/-- The fold over the associations appends, to the fields it starts from, the
fields of a subsequence of the associations, in their order. -/
theorem foldl_associationStep_append (nm : Namer) (assocs : List Association)
    (fields : List Field) :
    ∃ (survivors : List Association) (rest : List Field),
      assocs.foldl (associationStep nm) fields = fields ++ rest ∧
      List.Sublist survivors assocs ∧
      List.Forall₂ (fun a f => associationField nm a = some f) survivors rest := by
  induction assocs generalizing fields with
  | nil => exact ⟨[], [], by simp, List.Sublist.slnil, List.Forall₂.nil⟩
  | cons a tl ih =>
    rw [List.foldl_cons, associationStep_eq_field]
    by_cases hx : isExist nm fields a = true
    · obtain ⟨s, r, heq, hsub, hall⟩ := ih fields
      exact ⟨s, r, by simp [hx, heq], List.Sublist.cons a hsub, hall⟩
    · cases hf : associationField nm a with
      | none =>
        obtain ⟨s, r, heq, hsub, hall⟩ := ih fields
        exact ⟨s, r, by simp [hx, heq], List.Sublist.cons a hsub, hall⟩
      | some f =>
        obtain ⟨s, r, heq, hsub, hall⟩ := ih (fields ++ [f])
        refine ⟨a :: s, f :: r, ?_, List.Sublist.cons₂ a hsub, List.Forall₂.cons hf hall⟩
        simp [hx, heq]

theorem foldl_associationStep_surviving (nm : Namer) (assocs : List Association)
    (fields : List Field) :
    assocs.foldl (associationStep nm) fields = fields ++ survivingFields nm fields assocs := by
  induction assocs generalizing fields with
  | nil => simp [survivingFields]
  | cons a tl ih =>
    rw [List.foldl_cons, associationStep_eq_field]
    by_cases hx : isExist nm fields a = true
    · simp [hx, survivingFields, ih]
    · cases hf : associationField nm a with
      | none => simp [hx, hf, survivingFields, ih]
      | some f => simp [hx, hf, survivingFields, ih]

/-- C11. Merger output ordering: for a model with `k` columns the first `k`
merged fields are the column fields in column order, each with its column's
`Type` verbatim; the fields after them are exactly the fields of the surviving
associations in the order of the association list (`survivingFields`), where the
association `a` reached after the associations `pre` appends nothing when the drop
check finds its name in the output so far and the field of its kind otherwise;
these fields belong to a subsequence of the associations; so the length lies
between `k` and `k` plus the number of associations. -/
theorem mergeFields_ordering (nm : Namer) (m : Model) :
    (mergeFields nm m).take m.Fields.length = m.Fields.map (columnField nm) ∧
    ((mergeFields nm m).take m.Fields.length).map Field.typeExpr =
      m.Fields.map Column.Typ ∧
    (mergeFields nm m).drop m.Fields.length =
      survivingFields nm (m.Fields.map (columnField nm)) m.Associations ∧
    (∀ (pre post : List Association) (a : Association),
      m.Associations = pre ++ a :: post →
      mergeFields nm ⟨m.Name, m.Fields, pre ++ [a]⟩ =
        mergeFields nm ⟨m.Name, m.Fields, pre⟩ ++
          (if isExist nm (mergeFields nm ⟨m.Name, m.Fields, pre⟩) a then []
           else (associationField nm a).toList)) ∧
    (∃ survivors : List Association,
      List.Sublist survivors m.Associations ∧
      List.Forall₂ (fun a f => associationField nm a = some f) survivors
        ((mergeFields nm m).drop m.Fields.length)) ∧
    m.Fields.length ≤ (mergeFields nm m).length ∧
    (mergeFields nm m).length ≤ m.Fields.length + m.Associations.length := by
  obtain ⟨s, r, heq, hsub, hall⟩ :=
    foldl_associationStep_append nm m.Associations (columnFields nm m)
  have hlen : (columnFields nm m).length = m.Fields.length := by simp [columnFields]
  have hm : mergeFields nm m = columnFields nm m ++ r := heq
  have htake : (mergeFields nm m).take m.Fields.length = columnFields nm m := by
    rw [hm, ← hlen, List.take_left']
    rfl
  have hdrop : (mergeFields nm m).drop m.Fields.length = r := by
    rw [hm, ← hlen, List.drop_left']
    rfl
  have hr : r.length ≤ m.Associations.length := by
    rw [← List.Forall₂.length_eq hall]
    exact List.Sublist.length_le hsub
  have hsurv : r = survivingFields nm (columnFields nm m) m.Associations := by
    have h2 := foldl_associationStep_surviving nm m.Associations (columnFields nm m)
    have h3 : columnFields nm m ++ r =
        columnFields nm m ++ survivingFields nm (columnFields nm m) m.Associations := by
      rw [← h2]; exact heq.symm
    exact List.append_cancel_left h3
  refine ⟨htake, ?_, ?_, ?_, ⟨s, hsub, by rw [hdrop]; exact hall⟩, ?_, ?_⟩
  · rw [htake]
    simp [columnFields, columnField, Function.comp_def]
  · rw [hdrop, hsurv]
    rfl
  · intro pre post a _
    rw [mergeFields_snoc, associationStep_eq_field]
    by_cases hx : isExist nm (mergeFields nm ⟨m.Name, m.Fields, pre⟩) a = true
    · simp [hx]
    · cases hf : associationField nm a with
      | none => simp [hx]
      | some f => simp [hx]
  · rw [hm, List.length_append, hlen]; omega
  · rw [hm, List.length_append, hlen]; omega

/-- The ordering theorem at the model of `users` with the column `profile`: the
association `profiles` is dropped and the association `posts` gives the last
field. -/
theorem mergeFields_ordering_witness :
    mergeFields sampleNamer
        ⟨"users", [⟨"id", "int"⟩, ⟨"profile", "*datatypes.JSON"⟩],
          [⟨"profiles", associateHasOne, ""⟩, ⟨"posts", associateHasMany, ""⟩]⟩ =
      [⟨"ID", "int"⟩, ⟨"Profile", "*datatypes.JSON"⟩, ⟨"Posts", "[]*Post"⟩] ∧
    mergeFields sampleNamer
        ⟨"users", [⟨"id", "int"⟩, ⟨"profile", "*datatypes.JSON"⟩],
          [⟨"profiles", associateHasOne, ""⟩] ++ [⟨"posts", associateHasMany, ""⟩]⟩ =
      mergeFields sampleNamer
        ⟨"users", [⟨"id", "int"⟩, ⟨"profile", "*datatypes.JSON"⟩],
          [⟨"profiles", associateHasOne, ""⟩]⟩ ++
        (if isExist sampleNamer (mergeFields sampleNamer
            ⟨"users", [⟨"id", "int"⟩, ⟨"profile", "*datatypes.JSON"⟩],
              [⟨"profiles", associateHasOne, ""⟩]⟩) ⟨"posts", associateHasMany, ""⟩ then []
         else (associationField sampleNamer ⟨"posts", associateHasMany, ""⟩).toList) :=
  ⟨by decide,
   (mergeFields_ordering sampleNamer
      ⟨"users", [⟨"id", "int"⟩, ⟨"profile", "*datatypes.JSON"⟩],
        [⟨"profiles", associateHasOne, ""⟩, ⟨"posts", associateHasMany, ""⟩]⟩).2.2.2.1
      [⟨"profiles", associateHasOne, ""⟩] [] ⟨"posts", associateHasMany, ""⟩ rfl⟩

/-- C20. Unrecognised association kinds: an association whose `Type` is none of
`hasOne`, `hasMany`, `belongsTo` leaves the field list as it is, and the merged
fields equal those of the model without that association. -/
theorem mergeFields_unknown_kind (nm : Namer) (name : String) (cols : List Column)
    (pre post : List Association) (a : Association)
    (h1 : a.Typ ≠ associateHasOne) (h2 : a.Typ ≠ associateHasMany)
    (h3 : a.Typ ≠ associateBelongsTo) :
    (∀ fields, associationStep nm fields a = fields) ∧
    mergeFields nm ⟨name, cols, pre ++ [a]⟩ = mergeFields nm ⟨name, cols, pre⟩ ∧
    mergeFields nm ⟨name, cols, pre ++ a :: post⟩ = mergeFields nm ⟨name, cols, pre ++ post⟩ := by
  have hstep : ∀ fields, associationStep nm fields a = fields := by
    intro fields
    rw [associationStep_eq_field]
    have hf : associationField nm a = none := by
      simp [associationField, h1, h2, h3]
    simp [hf]
  refine ⟨hstep, ?_, ?_⟩
  · rw [mergeFields_snoc, hstep]
  · simp [mergeFields, columnFields, List.foldl_append, hstep]

/-- The unknown-kind theorem at the model of `users` with an association of the
hand-written kind `manyToMany` between its two associations. -/
theorem mergeFields_unknown_kind_witness :
    (∀ fields, associationStep sampleNamer fields ⟨"tags", "manyToMany", ""⟩ = fields) ∧
    mergeFields sampleNamer ⟨"users", [⟨"id", "int"⟩],
        [⟨"posts", associateHasMany, ""⟩] ++ [⟨"tags", "manyToMany", ""⟩]⟩ =
      mergeFields sampleNamer ⟨"users", [⟨"id", "int"⟩], [⟨"posts", associateHasMany, ""⟩]⟩ ∧
    mergeFields sampleNamer ⟨"users", [⟨"id", "int"⟩],
        [⟨"posts", associateHasMany, ""⟩] ++
          ⟨"tags", "manyToMany", ""⟩ :: [⟨"profiles", associateHasOne, ""⟩]⟩ =
      mergeFields sampleNamer ⟨"users", [⟨"id", "int"⟩],
        [⟨"posts", associateHasMany, ""⟩] ++ [⟨"profiles", associateHasOne, ""⟩]⟩ :=
  mergeFields_unknown_kind sampleNamer "users" [⟨"id", "int"⟩]
    [⟨"posts", associateHasMany, ""⟩] [⟨"profiles", associateHasOne, ""⟩]
    ⟨"tags", "manyToMany", ""⟩ (by decide) (by decide) (by decide)

/-! ## The rewrite of `Id` -/

theorem replaceIdChars_of_no_infix (l : List Char) (h : ¬ ['I', 'd'] <:+: l) :
    replaceIdChars l = l := by
  induction l with
  | nil => rfl
  | cons c tl ih =>
    cases tl with
    | nil => rfl
    | cons d rest =>
      have hc : ¬ (c = 'I' ∧ d = 'd') := by
        rintro ⟨rfl, rfl⟩
        exact h ⟨[], rest, rfl⟩
      have htl : ¬ ['I', 'd'] <:+: d :: rest := fun hi => h (List.infix_cons hi)
      simp only [replaceIdChars, hc, if_false, ih htl]

theorem replaceIdChars_first (pre post : List Char) (h : ¬ ['I', 'd'] <:+: pre ++ ['I']) :
    replaceIdChars (pre ++ 'I' :: 'd' :: post) = pre ++ 'I' :: 'D' :: post := by
  induction pre with
  | nil => simp [replaceIdChars]
  | cons c tl ih =>
    have htl : ¬ ['I', 'd'] <:+: tl ++ ['I'] := fun hi => h (List.infix_cons hi)
    cases tl with
    | nil =>
      have hc : ¬ (c = 'I' ∧ 'I' = 'd') := by
        rintro ⟨-, h2⟩
        exact absurd h2 (by decide)
      simp only [List.cons_append, List.nil_append, replaceIdChars, hc, if_false]
      simp
    | cons d rest =>
      have hc : ¬ (c = 'I' ∧ d = 'd') := by
        rintro ⟨rfl, rfl⟩
        exact h ⟨[], rest ++ ['I'], rfl⟩
      have := ih htl
      simp only [List.cons_append] at this ⊢
      simp only [replaceIdChars, hc, if_false, this]

/-- C12, counterexample. The camel-cased name `Identifier` does not end in `Id` and
is rewritten to `IDentifier`; `IdentityId` ends in `Id` and is rewritten to
`IDentityId`, its trailing `Id` left as it is. -/
theorem columnField_id_not_trailing :
    sampleNamer.toCamel "identifier" = "Identifier" ∧
    ¬ (['I', 'd'] <:+ (sampleNamer.toCamel "identifier").data) ∧
    (columnField sampleNamer ⟨"identifier", "string"⟩).name = "IDentifier" ∧
    sampleNamer.toCamel "identity_id" = "IdentityId" ∧
    ['I', 'd'] <:+ (sampleNamer.toCamel "identity_id").data ∧
    (columnField sampleNamer ⟨"identity_id", "int"⟩).name = "IDentityId" := by
  decide

/-- C12, as amended. The emitted field name is the camel-cased name with its first
occurrence of `Id`, wherever it stands, rewritten to `ID` and every other
character unchanged; a camel-cased name in which `Id` does not occur is left
unchanged. -/
theorem columnField_name_first_id (nm : Namer) (c : Column) :
    (∀ pre post : List Char,
      (nm.toCamel c.Name).data = pre ++ 'I' :: 'd' :: post →
      ¬ ['I', 'd'] <:+: pre ++ ['I'] →
      (columnField nm c).name = String.mk (pre ++ 'I' :: 'D' :: post)) ∧
    (¬ ['I', 'd'] <:+: (nm.toCamel c.Name).data →
      (columnField nm c).name = nm.toCamel c.Name) := by
  constructor
  · intro pre post hdata hfirst
    simp only [columnField, replaceId, hdata, replaceIdChars_first pre post hfirst]
  · intro hno
    simp only [columnField, replaceId, replaceIdChars_of_no_infix _ hno]

/-- The rewrite theorem at the columns `item_id` (`ItemId` gives `ItemID`) and
`title`. -/
theorem columnField_name_first_id_witness :
    (sampleNamer.toCamel "item_id").data = ['I', 't', 'e', 'm'] ++ 'I' :: 'd' :: [] ∧
    ¬ ['I', 'd'] <:+: ['I', 't', 'e', 'm'] ++ ['I'] ∧
    (columnField sampleNamer ⟨"item_id", "int"⟩).name = "ItemID" ∧
    ¬ ['I', 'd'] <:+: (sampleNamer.toCamel "title").data ∧
    (columnField sampleNamer ⟨"title", "string"⟩).name = "Title" :=
  ⟨by decide, by decide,
   (columnField_name_first_id sampleNamer ⟨"item_id", "int"⟩).1 ['I', 't', 'e', 'm'] []
     (by decide) (by decide),
   by decide,
   (columnField_name_first_id sampleNamer ⟨"title", "string"⟩).2 (by decide)⟩

/-! ## The column type mapping -/

theorem columnType_mem (n d : String) :
    columnType n d = "" ∨ columnType n d ∈ typeVocabulary := by
  unfold columnType
  split_ifs <;> simp [typeVocabulary]

theorem tablesStep_get (tables : List (String × List Column)) (r : CatalogRow) :
    mapGet (tablesStep tables r) r.tableName =
      some ((mapGet tables r.tableName).getD [] ++
        [{ Name := r.columnName, Typ := columnType r.isNullable r.dataType }]) := by
  unfold tablesStep
  cases h : mapGet tables r.tableName with
  | none => simp [mapGet_mapSet_same]
  | some columns => simp [mapGet_mapSet_same]

theorem tablesStep_get_other (tables : List (String × List Column)) (r : CatalogRow)
    (T : String) (h : T ≠ r.tableName) :
    mapGet (tablesStep tables r) T = mapGet tables T := by
  unfold tablesStep
  cases hg : mapGet tables r.tableName with
  | none => exact mapGet_mapSet_other tables r.tableName T _ h
  | some columns => exact mapGet_mapSet_other tables r.tableName T _ h

theorem tablesStep_types (tables : List (String × List Column)) (r : CatalogRow)
    (h : ∀ T cols, mapGet tables T = some cols →
      ∀ c ∈ cols, c.Typ = "" ∨ c.Typ ∈ typeVocabulary) :
    ∀ T cols, mapGet (tablesStep tables r) T = some cols →
      ∀ c ∈ cols, c.Typ = "" ∨ c.Typ ∈ typeVocabulary := by
  intro T cols hget c hc
  by_cases hT : T = r.tableName
  · subst hT
    rw [tablesStep_get] at hget
    injection hget with hget
    subst hget
    rcases List.mem_append.mp hc with hc | hc
    · cases hg : mapGet tables r.tableName with
      | none => simp [hg] at hc
      | some old =>
        rw [hg] at hc
        exact h _ old hg c hc
    · simp only [List.mem_singleton] at hc
      subst hc
      exact columnType_mem r.isNullable r.dataType
  · rw [tablesStep_get_other tables r T hT] at hget
    exact h T cols hget c hc

theorem buildTables_types_aux (rows : List CatalogRow) (tables : List (String × List Column))
    (h : ∀ T cols, mapGet tables T = some cols →
      ∀ c ∈ cols, c.Typ = "" ∨ c.Typ ∈ typeVocabulary) :
    ∀ T cols, mapGet (rows.foldl tablesStep tables) T = some cols →
      ∀ c ∈ cols, c.Typ = "" ∨ c.Typ ∈ typeVocabulary := by
  induction rows generalizing tables with
  | nil => exact h
  | cons r rest ih => exact ih _ (tablesStep_types tables r h)

/-- C13, counterexample. The rows of `email` (`character varying`) and `settings`
(`jsonb`, not nullable) have no entry in the mapping, and both columns are in the
field list of `users`, with the empty string as type. -/
theorem buildTables_keeps_unmapped :
    columnType "NO" "character varying" = "" ∧ columnType "NO" "jsonb" = "" ∧
    buildTables [⟨"users", "id", "NO", "integer"⟩,
                 ⟨"users", "email", "NO", "character varying"⟩,
                 ⟨"users", "settings", "NO", "jsonb"⟩] =
      [("users", [⟨"id", "int"⟩, ⟨"email", ""⟩, ⟨"settings", ""⟩])] := by
  decide

/-- C13, as amended. Every catalog row, mapped or not, appends its column to the
field list of its table, with the type the mapping gives and the empty string
when the mapping has no entry; so every column of every table has a type that is
empty or from the fixed vocabulary. -/
theorem buildTables_column_types (rows : List CatalogRow) :
    (∀ (tables : List (String × List Column)) (r : CatalogRow),
      mapGet (tablesStep tables r) r.tableName =
        some ((mapGet tables r.tableName).getD [] ++
          [{ Name := r.columnName, Typ := columnType r.isNullable r.dataType }])) ∧
    (∀ T cols, mapGet (buildTables rows) T = some cols →
      ∀ c ∈ cols, c.Typ = "" ∨ c.Typ ∈ typeVocabulary) := by
  refine ⟨tablesStep_get, ?_⟩
  apply buildTables_types_aux rows []
  intro T cols h
  simp [mapGet] at h

/-- The column type theorem at a `users` table with a mapped and an unmapped
column. -/
theorem buildTables_column_types_witness :
    mapGet (buildTables [⟨"users", "id", "NO", "integer"⟩,
        ⟨"users", "email", "NO", "character varying"⟩]) "users" =
      some [⟨"id", "int"⟩, ⟨"email", ""⟩] ∧
    ∀ c ∈ [(⟨"id", "int"⟩ : Column), ⟨"email", ""⟩], c.Typ = "" ∨ c.Typ ∈ typeVocabulary :=
  ⟨by decide,
   (buildTables_column_types [⟨"users", "id", "NO", "integer"⟩,
      ⟨"users", "email", "NO", "character varying"⟩]).2 "users" _ (by decide)⟩

/-- C14, counterexample. The raw type `smallint` is outside the vocabulary of the
claim and has a mapping, for both values of the nullability. -/
theorem columnType_smallint :
    "smallint" ∉ ["integer", "real", "numeric", "double precision", "text", "boolean",
      "date", "timestamp with time zone", "time with time zone", "jsonb", "ARRAY"] ∧
    columnType "YES" "smallint" = "null.Int" ∧ columnType "NO" "smallint" = "int" := by
  decide

/-- C14, as amended. The mapping is the two-axis table of the claim with `smallint`
added beside `integer` on both axes; every other raw type, and `jsonb` when
`is_nullable` is not `YES`, has no mapping (the empty string). -/
theorem columnType_table :
    (columnType "YES" "integer" = "null.Int" ∧ columnType "YES" "smallint" = "null.Int" ∧
      columnType "YES" "real" = "null.Float" ∧ columnType "YES" "numeric" = "null.Float" ∧
      columnType "YES" "double precision" = "null.Float" ∧
      columnType "YES" "text" = "null.String" ∧ columnType "YES" "boolean" = "null.Bool" ∧
      columnType "YES" "date" = "null.Time" ∧
      columnType "YES" "timestamp with time zone" = "null.Time" ∧
      columnType "YES" "time with time zone" = "null.Time" ∧
      columnType "YES" "jsonb" = "*datatypes.JSON" ∧
      columnType "YES" "ARRAY" = "pq.Int32Array") ∧
    (∀ n : String, n ≠ "YES" →
      columnType n "integer" = "int" ∧ columnType n "smallint" = "int" ∧
      columnType n "real" = "float64" ∧ columnType n "numeric" = "float64" ∧
      columnType n "double precision" = "float64" ∧
      columnType n "text" = "string" ∧ columnType n "boolean" = "bool" ∧
      columnType n "date" = "time.Time" ∧
      columnType n "timestamp with time zone" = "time.Time" ∧
      columnType n "time with time zone" = "datatypes.Time" ∧
      columnType n "ARRAY" = "pq.Int32Array") ∧
    (∀ d : String,
      d ∉ ["integer", "smallint", "real", "numeric", "double precision", "text", "boolean",
        "date", "timestamp with time zone", "time with time zone", "jsonb", "ARRAY"] →
      columnType "YES" d = "") ∧
    (∀ n d : String, n ≠ "YES" →
      d ∉ ["integer", "smallint", "real", "numeric", "double precision", "text", "boolean",
        "date", "timestamp with time zone", "time with time zone", "ARRAY"] →
      columnType n d = "") := by
  refine ⟨by decide, ?_, ?_, ?_⟩
  · intro n hn
    simp [columnType, hn]
  · intro d hd
    simp only [List.mem_cons, List.mem_singleton, List.not_mem_nil, or_false, not_or] at hd
    simp [columnType, hd]
  · intro n d hn hd
    simp only [List.mem_cons, List.mem_singleton, List.not_mem_nil, or_false, not_or] at hd
    simp [columnType, hn, hd]

/-- The mapping table at the nullability `NO` and at the raw types `uuid` and
`jsonb`. -/
theorem columnType_table_witness :
    "NO" ≠ "YES" ∧ columnType "NO" "time with time zone" = "datatypes.Time" ∧
    columnType "YES" "uuid" = "" ∧ columnType "NO" "jsonb" = "" :=
  ⟨by decide, (columnType_table.2.1 "NO" (by decide)).2.2.2.2.2.2.2.2.2.1,
   columnType_table.2.2.1 "uuid" (by decide),
   columnType_table.2.2.2 "NO" "jsonb" (by decide) (by decide)⟩

/-! ## Import selection -/

theorem mem_importFor (pk pv x : String) (fields : List Column) :
    x ∈ importFor pk pv fields ↔
      x = pv ∧ ∃ f ∈ fields, stringsContains f.Typ pk = true := by
  induction fields with
  | nil => simp [importFor]
  | cons f rest ih =>
    by_cases h : stringsContains f.Typ pk = true
    · simp [importFor, h]
    · simp [importFor, h, ih]

theorem importFor_sublist (pk pv : String) (fields : List Column) :
    importFor pk pv fields = [pv] ∨ importFor pk pv fields = [] := by
  induction fields with
  | nil => right; rfl
  | cons f rest ih =>
    by_cases h : stringsContains f.Typ pk = true
    · left; simp [importFor, h]
    · simpa [importFor, h] using ih

theorem mem_foldl_importFor (pkgs : List (String × String)) (fields : List Column)
    (init : List String) (x : String) :
    x ∈ pkgs.foldl (fun specs p => specs ++ importFor p.1 p.2 fields) init ↔
      x ∈ init ∨ ∃ p ∈ pkgs, x ∈ importFor p.1 p.2 fields := by
  induction pkgs generalizing init with
  | nil => simp
  | cons p rest ih =>
    rw [List.foldl_cons, ih]
    simp only [List.mem_append, List.mem_cons, exists_eq_or_imp, or_assoc]

theorem nodup_foldl_importFor (pkgs : List (String × String)) (fields : List Column)
    (init : List String) (hpk : (pkgs.map Prod.snd).Nodup) (hinit : init.Nodup)
    (hdisj : ∀ x ∈ init, x ∉ pkgs.map Prod.snd) :
    (pkgs.foldl (fun specs p => specs ++ importFor p.1 p.2 fields) init).Nodup := by
  induction pkgs generalizing init with
  | nil => exact hinit
  | cons p rest ih =>
    rw [List.foldl_cons]
    rw [List.map_cons, List.nodup_cons] at hpk
    have hp : p.2 ∉ init := fun hmem => hdisj p.2 hmem (by simp)
    apply ih _ hpk.2
    · rcases importFor_sublist p.1 p.2 fields with h | h
      · rw [h, List.nodup_append]
        refine ⟨hinit, by simp, ?_⟩
        intro x hx hx'
        simp only [List.mem_singleton] at hx'
        subst hx'
        exact hp hx
      · rw [h, List.append_nil]; exact hinit
    · intro x hx
      rcases List.mem_append.mp hx with hx | hx
      · intro hmem
        exact hdisj x hx (by simp [hmem])
      · have : x = p.2 := ((mem_importFor p.1 p.2 x fields).mp hx).1
        subst this
        exact hpk.1

theorem packages_path_injective :
    ∀ p ∈ packages, ∀ q ∈ packages, p.2 = q.2 → p = q := by
  decide

/-- Whatever the order in which the packages are visited, the path of a package is
among the imports exactly when a column type contains its marker. -/
theorem mem_importSpecs (pkgs : List (String × String)) (m : Model)
    (hperm : List.Perm pkgs packages) (p : String × String) (hp : p ∈ packages) :
    p.2 ∈ importSpecs pkgs m ↔ ∃ f ∈ m.Fields, stringsContains f.Typ p.1 = true := by
  unfold importSpecs
  rw [mem_foldl_importFor]
  constructor
  · rintro (h | ⟨q, hq, hmem⟩)
    · simp at h
    · obtain ⟨heq, hex⟩ := (mem_importFor q.1 q.2 p.2 m.Fields).mp hmem
      have hq' : q ∈ packages := hperm.subset hq
      have : p = q := packages_path_injective p hp q hq' heq
      subst this
      exact hex
  · intro hex
    right
    exact ⟨p, hperm.symm.subset hp, (mem_importFor p.1 p.2 p.2 m.Fields).mpr ⟨rfl, hex⟩⟩

/-- C15. Import selection: in whatever order the `range` over `packages` visits the
four packages, the import list holds the path of a package exactly when its
marker is a substring of the type of at least one column of the model, and no
path occurs in the list more than once. -/
theorem importSpecs_selection (pkgs : List (String × String)) (m : Model)
    (hperm : List.Perm pkgs packages) :
    (∀ p ∈ packages,
      p.2 ∈ importSpecs pkgs m ↔ ∃ f ∈ m.Fields, stringsContains f.Typ p.1 = true) ∧
    (importSpecs pkgs m).Nodup := by
  refine ⟨fun p hp => mem_importSpecs pkgs m hperm p hp, ?_⟩
  unfold importSpecs
  apply nodup_foldl_importFor pkgs m.Fields []
  · have h : (packages.map Prod.snd).Nodup := by decide
    exact (List.Perm.nodup_iff (List.Perm.map Prod.snd hperm)).mpr h
  · exact List.nodup_nil
  · intro x hx
    simp at hx

/-- The import selection at a model with a nullable integer and a time column, the
packages visited in the order of the source text. -/
theorem importSpecs_selection_witness :
    List.Perm packages packages ∧
    importSpecs packages ⟨"events", [⟨"count", "null.Int"⟩, ⟨"at", "time.Time"⟩], []⟩ =
      ["\"time\"", "\"gopkg.in/guregu/null.v4\""] ∧
    ((∀ p ∈ packages,
      p.2 ∈ importSpecs packages ⟨"events", [⟨"count", "null.Int"⟩, ⟨"at", "time.Time"⟩], []⟩ ↔
        ∃ f ∈ [(⟨"count", "null.Int"⟩ : Column), ⟨"at", "time.Time"⟩],
          stringsContains f.Typ p.1 = true) ∧
    (importSpecs packages
      ⟨"events", [⟨"count", "null.Int"⟩, ⟨"at", "time.Time"⟩], []⟩).Nodup) :=
  ⟨List.Perm.refl _, by decide,
   importSpecs_selection packages
     ⟨"events", [⟨"count", "null.Int"⟩, ⟨"at", "time.Time"⟩], []⟩ (List.Perm.refl _)⟩

theorem contains_eq_references_on_vocabulary :
    ∀ t ∈ "" :: typeVocabulary, ∀ p ∈ packages,
      stringsContains t p.1 = referencesPackage t p.1 := by
  decide

/-- C19. The import scan is exact on the type vocabulary: for every type string the
column type mapping produces, the empty string included, and every marker, the
marker is a substring of the type exactly when the type, after an optional
leading `*`, starts with the marker followed by a dot; so for a model whose column
types all come from the mapping the imports are exactly the packages that the
column types reference. -/
theorem importSpecs_exact_on_vocabulary :
    (∀ (n d : String), ∀ p ∈ packages,
      stringsContains (columnType n d) p.1 = referencesPackage (columnType n d) p.1) ∧
    (∀ (pkgs : List (String × String)) (m : Model), List.Perm pkgs packages →
      (∀ f ∈ m.Fields, ∃ n d, f.Typ = columnType n d) →
      ∀ p ∈ packages,
        p.2 ∈ importSpecs pkgs m ↔ ∃ f ∈ m.Fields, referencesPackage f.Typ p.1 = true) := by
  have hvoc : ∀ (n d : String), ∀ p ∈ packages,
      stringsContains (columnType n d) p.1 = referencesPackage (columnType n d) p.1 := by
    intro n d p hp
    apply contains_eq_references_on_vocabulary _ _ p hp
    rcases columnType_mem n d with h | h
    · rw [h]; exact List.mem_cons_self _ _
    · exact List.mem_cons_of_mem _ h
  refine ⟨hvoc, ?_⟩
  intro pkgs m hperm hfields p hp
  rw [mem_importSpecs pkgs m hperm p hp]
  constructor
  · rintro ⟨f, hf, hc⟩
    obtain ⟨n, d, hty⟩ := hfields f hf
    refine ⟨f, hf, ?_⟩
    rw [hty] at hc ⊢
    rw [← hvoc n d p hp]; exact hc
  · rintro ⟨f, hf, hc⟩
    obtain ⟨n, d, hty⟩ := hfields f hf
    refine ⟨f, hf, ?_⟩
    rw [hty] at hc ⊢
    rw [hvoc n d p hp]; exact hc

/-- The exactness theorem at a model whose columns come from the rows
`(YES, jsonb)`, `(NO, time with time zone)` and `(NO, uuid)`: the only import is
`gorm.io/datatypes`. -/
theorem importSpecs_exact_on_vocabulary_witness :
    importSpecs packages
        ⟨"events", [⟨"payload", columnType "YES" "jsonb"⟩,
          ⟨"starts", columnType "NO" "time with time zone"⟩,
          ⟨"ref", columnType "NO" "uuid"⟩], []⟩ = ["\"gorm.io/datatypes\""] ∧
    ∀ p ∈ packages,
      p.2 ∈ importSpecs packages
        ⟨"events", [⟨"payload", columnType "YES" "jsonb"⟩,
          ⟨"starts", columnType "NO" "time with time zone"⟩,
          ⟨"ref", columnType "NO" "uuid"⟩], []⟩ ↔
      ∃ f ∈ [(⟨"payload", columnType "YES" "jsonb"⟩ : Column),
          ⟨"starts", columnType "NO" "time with time zone"⟩,
          ⟨"ref", columnType "NO" "uuid"⟩], referencesPackage f.Typ p.1 = true :=
  ⟨by decide,
   importSpecs_exact_on_vocabulary.2 packages
     ⟨"events", [⟨"payload", columnType "YES" "jsonb"⟩,
       ⟨"starts", columnType "NO" "time with time zone"⟩,
       ⟨"ref", columnType "NO" "uuid"⟩], []⟩ (List.Perm.refl _)
     (by
       intro f hf
       simp only [List.mem_cons, List.mem_singleton, List.not_mem_nil, or_false] at hf
       rcases hf with rfl | rfl | rfl
       · exact ⟨"YES", "jsonb", rfl⟩
       · exact ⟨"NO", "time with time zone", rfl⟩
       · exact ⟨"NO", "uuid", rfl⟩)⟩

/-! ## One step of the has-relation pass -/

theorem setHasOne_length (v : List Association) (k : Nat) :
    (setHasOne v k).length = v.length := by
  induction v generalizing k with
  | nil => rfl
  | cons a tl ih =>
    cases k with
    | zero => rfl
    | succ k => simp [setHasOne, ih]

theorem setHasOne_getElem?_ne (v : List Association) (k i : Nat) (h : i ≠ k) :
    (setHasOne v k)[i]? = v[i]? := by
  induction v generalizing k i with
  | nil => rfl
  | cons a tl ih =>
    cases k with
    | zero =>
      cases i with
      | zero => exact absurd rfl h
      | succ i => simp [setHasOne]
    | succ k =>
      cases i with
      | zero => simp [setHasOne]
      | succ i =>
        simp only [setHasOne, List.getElem?_cons_succ]
        exact ih k i (fun e => h (by rw [e]))

theorem setHasOne_getElem?_eq (v : List Association) (k : Nat) (a : Association)
    (h : v[k]? = some a) :
    (setHasOne v k)[k]? = some { a with Typ := associateHasOne } := by
  induction v generalizing k with
  | nil => simp at h
  | cons b tl ih =>
    cases k with
    | zero =>
      simp only [List.getElem?_cons_zero, Option.some.injEq] at h
      subst h
      simp [setHasOne]
    | succ k =>
      simp only [List.getElem?_cons_succ] at h
      simp only [setHasOne, List.getElem?_cons_succ]
      exact ih k h

/-- The three outcomes of the loop of lines 282-291. -/
theorem hasRelationScan_cases (new : Association) (v : List Association) (k : Nat)
    (rest : List Association) (h : rest = v.drop k) :
    hasRelationScan new v k rest = v ∨
    hasRelationScan new v k rest = v ++ [new] ∨
    ∃ j a, v[j]? = some a ∧ a.Name = new.Name ∧
      a.ConstraintType ≠ new.ConstraintType ∧
      hasRelationScan new v k rest = setHasOne v j := by
  induction rest generalizing k with
  | nil => left; rfl
  | cons a tl ih =>
    have hk : v[k]? = some a := by
      have : (v.drop k)[0]? = some a := by rw [← h]; simp
      simpa using this
    have htl : tl = v.drop (k + 1) := by
      have : (v.drop k).tail = tl := by rw [← h]; rfl
      rw [← this]
      simp
    by_cases hn : a.Name = new.Name
    · by_cases hc : a.ConstraintType = new.ConstraintType
      · have := ih (k + 1) htl
        simpa [hasRelationScan, hn, hc] using this
      · right; right
        exact ⟨k, a, hk, hn, hc, by simp [hasRelationScan, hn, hc]⟩
    · right; left
      simp [hasRelationScan, hn]

theorem hasRelationScan_ne_nil (new : Association) (v : List Association) (hv : v ≠ []) :
    hasRelationScan new v 0 v ≠ [] := by
  rcases hasRelationScan_cases new v 0 v (by simp) with h | h | ⟨j, a, -, -, -, h⟩
  · rw [h]; exact hv
  · rw [h]; simp
  · rw [h]
    intro hnil
    have := setHasOne_length v j
    rw [hnil] at this
    exact hv (List.length_eq_zero.mp this.symm)

theorem noEmptyList_mapSet (m : List (String × List Association)) (k : String)
    (v : List Association) (hv : v ≠ []) (h : NoEmptyList m) :
    NoEmptyList (mapSet m k v) := by
  intro T
  by_cases hT : T = k
  · subst hT
    rw [mapGet_mapSet_same]
    intro he
    injection he with he
    exact hv he
  · rw [mapGet_mapSet_other m k T v hT]
    exact h T

theorem noEmptyList_belongsToStep (bt : List (String × String))
    (m : List (String × List Association)) (r : BelongsToRow) (h : NoEmptyList m) :
    NoEmptyList (belongsToStep bt m r) := by
  cases hb : mapGet bt r.constraintName with
  | none => rw [belongsToStep_unresolved bt m r hb]; exact h
  | some P =>
    rw [belongsToStep_resolved bt m r P hb]
    apply noEmptyList_mapSet m _ _ _ h
    cases hg : mapGet m r.tableName with
    | none => simp
    | some v =>
      have hv : v ≠ [] := fun e => h r.tableName (by rw [hg, e])
      by_cases hx : v.any (fun a => a.Name == P) = true
      · simpa [hx] using hv
      · simp [hx]

theorem noEmptyList_hasRelationStep (nm : Namer) (tables : List (String × List Column))
    (m : List (String × List Association)) (r : HasRelationRow) (h : NoEmptyList m) :
    NoEmptyList (hasRelationStep nm tables m r) := by
  unfold hasRelationStep
  cases hg : mapGet m r.parent with
  | none => exact noEmptyList_mapSet m _ _ (by simp) h
  | some v =>
    have hv : v ≠ [] := fun e => h r.parent (by rw [hg, e])
    exact noEmptyList_mapSet m _ _ (hasRelationScan_ne_nil _ v hv) h

theorem noEmptyList_classify (nm : Namer) (tables : List (String × List Column))
    (bt : List (String × String)) (brows : List BelongsToRow) (rows : List HasRelationRow) :
    NoEmptyList (classify nm tables bt brows rows) := by
  have h1 : ∀ (brows : List BelongsToRow) (m : List (String × List Association)),
      NoEmptyList m → NoEmptyList (belongsToPass bt brows m) := by
    intro brows
    induction brows with
    | nil => intro m h; exact h
    | cons r rest ih => intro m h; exact ih _ (noEmptyList_belongsToStep bt m r h)
  have h2 : ∀ (rows : List HasRelationRow) (m : List (String × List Association)),
      NoEmptyList m → NoEmptyList (hasRelationPass nm tables rows m) := by
    intro rows
    induction rows with
    | nil => intro m h; exact h
    | cons r rest ih => intro m h; exact ih _ (noEmptyList_hasRelationStep nm tables m r h)
  apply h2 rows _ (h1 brows [] _)
  intro T
  simp [mapGet]

theorem hasRelationStep_listOf_other (nm : Namer) (tables : List (String × List Column))
    (m : List (String × List Association)) (r : HasRelationRow) (T : String)
    (hT : T ≠ r.parent) :
    listOf (hasRelationStep nm tables m r) T = listOf m T := by
  unfold hasRelationStep
  cases mapGet m r.parent with
  | none => exact listOf_mapSet_other m r.parent T _ hT
  | some v => exact listOf_mapSet_other m r.parent T _ hT

theorem hasRelationStep_insert_of_noEmpty (nm : Namer) (tables : List (String × List Column))
    (m : List (String × List Association)) (r : HasRelationRow) (hm : NoEmptyList m)
    (h : ∀ a ∈ listOf m r.parent, a.Name ≠ r.children) :
    listOf (hasRelationStep nm tables m r) r.parent =
      listOf m r.parent ++
        [{ Name := r.children, Typ := associateHasMany, ConstraintType := r.constraintType }] := by
  unfold hasRelationStep
  cases hg : mapGet m r.parent with
  | none => simp [listOf, hg, mapGet_mapSet_same]
  | some v =>
    have hl : listOf m r.parent = v := by simp [listOf, hg]
    rw [hl] at h
    simp only [listOf_mapSet_same, hl]
    cases v with
    | nil => exact absurd hg (hm r.parent)
    | cons a tl =>
      have hn : a.Name ≠ r.children := h a (List.mem_cons_self a tl)
      simp [hasRelationScan, hn]

/-- C16. Has-relation insert: in every state that the two passes reach, a row whose
parent's list (absent, or of any length) holds no association named after the
child appends exactly the association `{child, hasMany}` with the row's constraint
kind to that list; the entries already there, and the lists of the other tables,
stay as they are. Every row is processed (no row is skipped), so this holds for
the rows that are not skipped. -/
theorem hasRelationStep_insert (nm : Namer) (tables : List (String × List Column))
    (belongsTables : List (String × String)) (belongsToRows : List BelongsToRow)
    (rows : List HasRelationRow) (r : HasRelationRow)
    (h : ∀ a ∈ listOf (classify nm tables belongsTables belongsToRows rows) r.parent,
      a.Name ≠ r.children) :
    listOf (hasRelationStep nm tables
        (classify nm tables belongsTables belongsToRows rows) r) r.parent =
      listOf (classify nm tables belongsTables belongsToRows rows) r.parent ++
        [{ Name := r.children, Typ := associateHasMany, ConstraintType := r.constraintType }] ∧
    ∀ T, T ≠ r.parent →
      listOf (hasRelationStep nm tables
        (classify nm tables belongsTables belongsToRows rows) r) T =
      listOf (classify nm tables belongsTables belongsToRows rows) T :=
  ⟨hasRelationStep_insert_of_noEmpty nm tables _ r
      (noEmptyList_classify nm tables belongsTables belongsToRows rows) h,
   fun T hT => hasRelationStep_listOf_other nm tables _ r T hT⟩

/-- The insert theorem at the blog schema, for a further row with the child `likes`
of `posts`. -/
theorem hasRelationStep_insert_witness :
    (∀ a ∈ listOf (classify sampleNamer blogTables blogBelongsTables blogBelongsToRows
        blogHasRows) "posts", a.Name ≠ "likes") ∧
    listOf (hasRelationStep sampleNamer blogTables
        (classify sampleNamer blogTables blogBelongsTables blogBelongsToRows blogHasRows)
        ⟨"posts", "likes", "post_id", "FOREIGN KEY"⟩) "posts" =
      listOf (classify sampleNamer blogTables blogBelongsTables blogBelongsToRows
        blogHasRows) "posts" ++ [⟨"likes", associateHasMany, "FOREIGN KEY"⟩] :=
  ⟨by decide,
   (hasRelationStep_insert sampleNamer blogTables blogBelongsTables blogBelongsToRows
      blogHasRows ⟨"posts", "likes", "post_id", "FOREIGN KEY"⟩ (by decide)).1⟩

/-- Each entry of a list keeps its position, name and constraint kind through a
has-relation step; its type stays or becomes `hasOne`, and it stays when the
name is not the child's or the constraint kind is the row's. -/
theorem hasRelationStep_entry (nm : Namer) (tables : List (String × List Column))
    (m : List (String × List Association)) (r : HasRelationRow) (T : String) (i : Nat)
    (a : Association) (hget : (listOf m T)[i]? = some a) :
    (∃ a', (listOf (hasRelationStep nm tables m r) T)[i]? = some a' ∧
      a'.Name = a.Name ∧ a'.ConstraintType = a.ConstraintType ∧
      (a'.Typ = a.Typ ∨ a'.Typ = associateHasOne)) ∧
    ((a.Name ≠ r.children ∨ a.ConstraintType = r.constraintType) →
      (listOf (hasRelationStep nm tables m r) T)[i]? = some a) := by
  by_cases hT : T = r.parent
  · subst hT
    cases hg : mapGet m r.parent with
    | none => simp [listOf, hg] at hget
    | some v =>
      have hl : listOf m r.parent = v := by simp [listOf, hg]
      rw [hl] at hget
      have hstep : listOf (hasRelationStep nm tables m r) r.parent =
          hasRelationScan ⟨r.children, associateHasMany, r.constraintType⟩ v 0 v := by
        unfold hasRelationStep
        simp only [hg, listOf_mapSet_same]
      rw [hstep]
      rcases hasRelationScan_cases ⟨r.children, associateHasMany, r.constraintType⟩ v 0 v
        (by simp) with h | h | ⟨j, b, hb, hbn, hbc, h⟩
      · rw [h]
        exact ⟨⟨a, hget, rfl, rfl, Or.inl rfl⟩, fun _ => hget⟩
      · rw [h]
        have hi : i < v.length := by
          by_contra hlt
          rw [List.getElem?_eq_none (by omega)] at hget
          exact Option.noConfusion hget
        have : (v ++ [(⟨r.children, associateHasMany, r.constraintType⟩ : Association)])[i]? =
            some a := by
          rw [List.getElem?_append_left hi]; exact hget
        exact ⟨⟨a, this, rfl, rfl, Or.inl rfl⟩, fun _ => this⟩
      · rw [h]
        by_cases hij : i = j
        · subst hij
          have hab : b = a := by
            rw [hget] at hb
            injection hb with hb
            exact hb.symm
          subst hab
          refine ⟨⟨_, setHasOne_getElem?_eq v i b hget, rfl, rfl, Or.inr rfl⟩, ?_⟩
          rintro (hne | hce)
          · exact absurd hbn hne
          · exact absurd hce hbc
        · rw [setHasOne_getElem?_ne v j i hij]
          exact ⟨⟨a, hget, rfl, rfl, Or.inl rfl⟩, fun _ => hget⟩
  · rw [hasRelationStep_listOf_other nm tables m r T hT]
    exact ⟨⟨a, hget, rfl, rfl, Or.inl rfl⟩, fun _ => hget⟩

/-- C17, counterexample. `users` holds the `belongsTo` association `profiles` from
the belongs-to pass; the row `(users, profiles, user_id, UNIQUE)` of the
has-relation pass rewrites its type to `hasOne`. -/
theorem hasRelationPass_rewrites_belongsTo :
    mapGet (belongsToPass mutualBelongsTables mutualBelongsToRows []) "users" =
      some [⟨"profiles", associateBelongsTo, "FOREIGN KEY"⟩] ∧
    mapGet (classify sampleNamer [] mutualBelongsTables mutualBelongsToRows mutualHasRows)
        "users" =
      some [⟨"profiles", associateHasOne, "FOREIGN KEY"⟩] := by
  decide

theorem hasRelationStep_head_upgrade (nm : Namer) (tables : List (String × List Column))
    (m : List (String × List Association)) (r : HasRelationRow) (a : Association)
    (hget : (listOf m r.parent)[0]? = some a) (hn : a.Name = r.children)
    (hc : a.ConstraintType ≠ r.constraintType) :
    (listOf (hasRelationStep nm tables m r) r.parent)[0]? =
      some { a with Typ := associateHasOne } := by
  cases hg : mapGet m r.parent with
  | none => simp [listOf, hg] at hget
  | some v =>
    have hl : listOf m r.parent = v := by simp [listOf, hg]
    rw [hl] at hget
    cases v with
    | nil => simp at hget
    | cons b tl =>
      simp only [List.getElem?_cons_zero, Option.some.injEq] at hget
      subst hget
      unfold hasRelationStep
      simp only [hg, listOf_mapSet_same]
      simp [hasRelationScan, hn, hc, setHasOne]

/-- C17, as amended. Through a has-relation step every association, whatever its
type, keeps its position, its name and its constraint kind, and its type stays as
it is or becomes `hasOne`; an association whose name is not the row's child, or
whose constraint kind is the row's, is unchanged, so one of type `belongsTo` is
still a `belongsTo`; and the head entry of the parent's list, when it carries the
child's name and another constraint kind, becomes `hasOne` whatever its type
was. -/
theorem hasRelationStep_belongsTo_frame (nm : Namer) (tables : List (String × List Column))
    (associations : List (String × List Association)) (r : HasRelationRow) (T : String)
    (i : Nat) (a : Association) (hget : (listOf associations T)[i]? = some a) :
    (a.Typ = associateBelongsTo →
      (a.Name ≠ r.children ∨ a.ConstraintType = r.constraintType) →
      ∃ a', (listOf (hasRelationStep nm tables associations r) T)[i]? = some a' ∧
        a' = a ∧ a'.Typ = associateBelongsTo) ∧
    (∃ a', (listOf (hasRelationStep nm tables associations r) T)[i]? = some a' ∧
      a'.Name = a.Name ∧ a'.ConstraintType = a.ConstraintType ∧
      (a'.Typ = a.Typ ∨ a'.Typ = associateHasOne)) ∧
    ((a.Name ≠ r.children ∨ a.ConstraintType = r.constraintType) →
      (listOf (hasRelationStep nm tables associations r) T)[i]? = some a) ∧
    (T = r.parent → i = 0 → a.Name = r.children → a.ConstraintType ≠ r.constraintType →
      (listOf (hasRelationStep nm tables associations r) T)[i]? =
        some { a with Typ := associateHasOne }) := by
  obtain ⟨hex, hsame⟩ := hasRelationStep_entry nm tables associations r T i a hget
  refine ⟨fun hbt hcond => ⟨a, hsame hcond, rfl, hbt⟩, hex, hsame, ?_⟩
  intro hT hi hn hc
  subst hT
  subst hi
  exact hasRelationStep_head_upgrade nm tables associations r a hget hn hc

/-- The frame theorem at the list `[users belongsTo]` of `posts`: the row `(posts,
comments, post_id, UNIQUE)` leaves the association `users` as it is, and the row
`(posts, users, post_id, UNIQUE)` rewrites it to `hasOne`. -/
theorem hasRelationStep_belongsTo_frame_witness :
    (listOf [("posts", [(⟨"users", associateBelongsTo, "FOREIGN KEY"⟩ : Association)])]
        "posts")[0]? = some ⟨"users", associateBelongsTo, "FOREIGN KEY"⟩ ∧
    (∃ a', (listOf (hasRelationStep sampleNamer blogTables
        [("posts", [⟨"users", associateBelongsTo, "FOREIGN KEY"⟩])]
        ⟨"posts", "comments", "post_id", "UNIQUE"⟩) "posts")[0]? = some a' ∧
      a' = ⟨"users", associateBelongsTo, "FOREIGN KEY"⟩ ∧ a'.Typ = associateBelongsTo) ∧
    (listOf (hasRelationStep sampleNamer blogTables
        [("posts", [⟨"users", associateBelongsTo, "FOREIGN KEY"⟩])]
        ⟨"posts", "users", "post_id", "UNIQUE"⟩) "posts")[0]? =
      some ⟨"users", associateHasOne, "FOREIGN KEY"⟩ :=
  ⟨by decide,
   (hasRelationStep_belongsTo_frame sampleNamer blogTables
      [("posts", [⟨"users", associateBelongsTo, "FOREIGN KEY"⟩])]
      ⟨"posts", "comments", "post_id", "UNIQUE"⟩ "posts" 0
      ⟨"users", associateBelongsTo, "FOREIGN KEY"⟩ (by decide)).1 rfl
      (Or.inl (by decide)),
   (hasRelationStep_belongsTo_frame sampleNamer blogTables
      [("posts", [⟨"users", associateBelongsTo, "FOREIGN KEY"⟩])]
      ⟨"posts", "users", "post_id", "UNIQUE"⟩ "posts" 0
      ⟨"users", associateBelongsTo, "FOREIGN KEY"⟩ (by decide)).2.2.2 rfl rfl rfl
      (by decide)⟩

/-- C18. Users/posts scenario: with the naming functions giving the English
singulars, plurals and camel-cased forms of the names involved, classification
gives `posts` the list `[users belongsTo]` and `users` the list `[posts hasMany]`;
the models assembled are those of the two tables; the merged fields of `posts` are
`ID:int`, `Title:string`, `UserID:int`, `User:*User`, and those of `users` are
`ID:int`, `Name:string`, `Posts:[]*Post`. -/
theorem users_posts_scenario (nm : Namer)
    (hid : nm.toCamel "id" = "Id") (hname : nm.toCamel "name" = "Name")
    (htitle : nm.toCamel "title" = "Title") (huserId : nm.toCamel "user_id" = "UserId")
    (husers : nm.singular "users" = "user") (huser : nm.toCamel "user" = "User")
    (hUser : nm.plural "User" = "Users")
    (hposts : nm.singular "posts" = "post") (hpost : nm.toCamel "post" = "Post")
    (hPost : nm.plural "Post" = "Posts")
    (hpostsC : nm.toCamel "posts" = "Posts") (hPostsP : nm.plural "Posts" = "Posts")
    (hPostsS : nm.singular "Posts" = "Post") :
    buildTables usersPostsCatalogRows =
      [("users", [⟨"id", "int"⟩, ⟨"name", "string"⟩]),
       ("posts", [⟨"id", "int"⟩, ⟨"title", "string"⟩, ⟨"user_id", "int"⟩])] ∧
    mapGet (classify nm (buildTables usersPostsCatalogRows) usersPostsBelongsTables
        usersPostsBelongsToRows usersPostsHasRows) "posts" =
      some [⟨"users", associateBelongsTo, "FOREIGN KEY"⟩] ∧
    mapGet (classify nm (buildTables usersPostsCatalogRows) usersPostsBelongsTables
        usersPostsBelongsToRows usersPostsHasRows) "users" =
      some [⟨"posts", associateHasMany, "FOREIGN KEY"⟩] ∧
    (assemble (buildTables usersPostsCatalogRows)
        (classify nm (buildTables usersPostsCatalogRows) usersPostsBelongsTables
          usersPostsBelongsToRows usersPostsHasRows)).map persisted =
      [⟨"users", [⟨"id", "int"⟩, ⟨"name", "string"⟩], [⟨"posts", associateHasMany, ""⟩]⟩,
       ⟨"posts", [⟨"id", "int"⟩, ⟨"title", "string"⟩, ⟨"user_id", "int"⟩],
         [⟨"users", associateBelongsTo, ""⟩]⟩] ∧
    mergeFields nm ⟨"posts", [⟨"id", "int"⟩, ⟨"title", "string"⟩, ⟨"user_id", "int"⟩],
        [⟨"users", associateBelongsTo, ""⟩]⟩ =
      [⟨"ID", "int"⟩, ⟨"Title", "string"⟩, ⟨"UserID", "int"⟩, ⟨"User", "*User"⟩] ∧
    mergeFields nm ⟨"users", [⟨"id", "int"⟩, ⟨"name", "string"⟩],
        [⟨"posts", associateHasMany, ""⟩]⟩ =
      [⟨"ID", "int"⟩, ⟨"Name", "string"⟩, ⟨"Posts", "[]*Post"⟩] := by
  have hID : replaceId "Id" = "ID" := by decide
  have hNameR : replaceId "Name" = "Name" := by decide
  have hTitleR : replaceId "Title" = "Title" := by decide
  have hUserID : replaceId "UserId" = "UserID" := by decide
  refine ⟨by decide, rfl, rfl, rfl, ?_, ?_⟩
  · have hx : isExist nm [⟨"ID", "int"⟩, ⟨"Title", "string"⟩, ⟨"UserID", "int"⟩]
        ⟨"users", associateBelongsTo, ""⟩ = false := by
      simp only [isExist, husers, huser, hUser]
      decide
    have hstep := associationStep_pointer nm
      [⟨"ID", "int"⟩, ⟨"Title", "string"⟩, ⟨"UserID", "int"⟩]
      ⟨"users", associateBelongsTo, ""⟩ hx (Or.inl rfl)
    simp only [husers, huser] at hstep
    simp only [mergeFields, columnFields, List.map, columnField, hid, htitle, huserId,
      hID, hTitleR, hUserID, List.foldl, hstep]
    decide
  · have hx : isExist nm [⟨"ID", "int"⟩, ⟨"Name", "string"⟩]
        ⟨"posts", associateHasMany, ""⟩ = false := by
      simp only [isExist, hposts, hpost, hPost]
      decide
    have hstep := associationStep_hasMany nm [⟨"ID", "int"⟩, ⟨"Name", "string"⟩]
      ⟨"posts", associateHasMany, ""⟩ hx rfl
    simp only [hpostsC, hPostsP, hPostsS] at hstep
    simp only [mergeFields, columnFields, List.map, columnField, hid, hname,
      hID, hNameR, List.foldl, hstep]
    decide

/-- The scenario with the naming functions of the examples. -/
theorem users_posts_scenario_witness :
    mergeFields sampleNamer
        ⟨"posts", [⟨"id", "int"⟩, ⟨"title", "string"⟩, ⟨"user_id", "int"⟩],
          [⟨"users", associateBelongsTo, ""⟩]⟩ =
      [⟨"ID", "int"⟩, ⟨"Title", "string"⟩, ⟨"UserID", "int"⟩, ⟨"User", "*User"⟩] ∧
    mergeFields sampleNamer ⟨"users", [⟨"id", "int"⟩, ⟨"name", "string"⟩],
        [⟨"posts", associateHasMany, ""⟩]⟩ =
      [⟨"ID", "int"⟩, ⟨"Name", "string"⟩, ⟨"Posts", "[]*Post"⟩] :=
  (users_posts_scenario sampleNamer rfl rfl rfl rfl rfl rfl rfl rfl rfl rfl rfl rfl rfl).2.2.2.2

end GenerateModel
